import Mathlib

/-!
# zfsbackup-go: `backup.List` (backup/list.go)

A shallow embedding of `List` and `readManifest` from `backup/list.go`, with the
collaborators that live outside that file (backend preparation, cache directory
resolution, cache synchronisation, payload extraction, JSON decoding, path joining and
the manifest renderer) passed in as an explicit environment.  Every call to a
collaborator and every call to the application logger is recorded, in program order,
as an `Event`, so that statements such as "the sync is never attempted" or "no
inventory is emitted" are statements about the event trace of one run.  `List` hands
its two reports to `Infof` and `Noticef` as the format argument, without operands; the
message the logger emits is `Sprintf` of that format, which is embedded as well.
-/

set_option autoImplicit false

namespace backup

/-! ## Data model -/

/-- An error value, identified with the text that `%v` prints for it. -/
abbrev Error := String

/-- A Go `time.Time` as produced by decoding JSON: an instant given by whole seconds
and nanoseconds within the second, plus a location that is not part of the instant.
Values decoded from JSON never carry a monotonic clock reading, so the monotonic branch
of `Time.Before` is not reachable from `List`. -/
structure Time where
  sec : Int
  nsec : Nat
  loc : String
deriving DecidableEq, Repr

/-- Go `func (t Time) Before(u Time) bool` on times without a monotonic reading:
`ts < us || ts == us && t.nsec() < u.nsec()`. -/
def Time.Before (t u : Time) : Bool :=
  decide (t.sec < u.sec) || (decide (t.sec = u.sec) && decide (t.nsec < u.nsec))

/-- Go `func (t Time) Equal(u Time) bool` on times without a monotonic reading: the two
times denote the same instant, whatever their locations. -/
def Time.Equal (t u : Time) : Bool :=
  decide (t.sec = u.sec) && decide (t.nsec = u.nsec)

/-- Modelled from the spec: the base snapshot metadata of `helpers.JobInfo`, whose
declaration is in the `helpers` package; only `creationTime` is read by `List`. -/
structure SnapshotInfo where
  CreationTime : Time
deriving DecidableEq, Repr

/-- Modelled from the spec: the `helpers.JobInfo` record, whose declaration is in the
`helpers` package.  The fields are the ones the data model names (volume name, base
snapshot, destination list); `Opaque` stands for the additional fields that are kept in
the record but never interpreted by `List`. -/
structure JobInfo where
  VolumeName : String
  BaseSnapshot : SnapshotInfo
  Destinations : List String
  Opaque : String
deriving DecidableEq, Repr

/-- Go `strings.Compare(a, b)`: `0` if `a == b`, `-1` if `a < b`, `+1` otherwise.  Go
compares the UTF-8 bytes; on text decoded from JSON (always valid UTF-8) byte order and
code point order coincide, so the comparison is the lexicographic order on the
characters of the two strings. -/
def stringsCompare (a b : String) : Int :=
  if a = b then 0 else if a.toList < b.toList then -1 else 1

/-- The `less` closure that `List` passes to `sort.SliceStable` (list.go, lines 77-84),
as a function of the two elements the indices select. -/
def less (a b : JobInfo) : Bool :=
  let cmp := stringsCompare a.VolumeName b.VolumeName
  if cmp = 0 then
    a.BaseSnapshot.CreationTime.Before b.BaseSnapshot.CreationTime
  else
    decide (cmp < 0)

/-! ## `sort.SliceStable` -/

/-- One pass of the inner loop of Go's insertion sort
(`for j := i; j > a && less(data[j], data[j-1]); j--  swap`):
the new element `x` travels left past every predecessor it is strictly less than.
The argument is the already sorted prefix in reverse, nearest predecessor first. -/
def bubbleLeft {α : Type} (lt : α → α → Bool) (x : α) : List α → List α
  | [] => [x]
  | p :: ps => if lt x p then p :: bubbleLeft lt x ps else x :: p :: ps

/-- Go `sort.SliceStable(x, less)`, whose contract is to sort `x` by `less` while keeping
equal elements in their original order.  The embedding is the insertion sort the library
runs on every block (and on the whole slice when it has at most 20 elements): elements
are taken left to right and each is moved left by `bubbleLeft`.  For the comparator of
`List` the contract determines the output (`sortManifests_unique`), so the merging of
blocks that the library adds for longer slices yields the same sequence. -/
def sortSliceStable {α : Type} (lt : α → α → Bool) (xs : List α) : List α :=
  (xs.foldl (fun sortedRev x => bubbleLeft lt x sortedRev) []).reverse

/-- The manifests in the order `List` renders them. -/
def sortManifests (ms : List JobInfo) : List JobInfo :=
  sortSliceStable less ms

/-- The pair a manifest is ordered by: the volume name, then the instant of the base
snapshot's creation time, compared lexicographically. -/
def sortKey (m : JobInfo) : String ×ₗ (Int ×ₗ Nat) :=
  toLex (m.VolumeName,
    toLex (m.BaseSnapshot.CreationTime.sec, m.BaseSnapshot.CreationTime.nsec))

/-- The two manifests tie on both sort keys: equal volume name and equal creation
instant of the base snapshot. -/
def sameKey (a b : JobInfo) : Bool :=
  decide (a.VolumeName = b.VolumeName) &&
    a.BaseSnapshot.CreationTime.Equal b.BaseSnapshot.CreationTime

/-- The order `List` establishes between a rendered manifest and one rendered after it:
the volume name grows, or it stays and the creation time does not go back. -/
def inOrder (a b : JobInfo) : Prop :=
  a.VolumeName < b.VolumeName ∨
    (a.VolumeName = b.VolumeName ∧
      b.BaseSnapshot.CreationTime.Before a.BaseSnapshot.CreationTime = false)

/-! ## `fmt.Sprintf` without operands

`helpers.AppLogger.Noticef(format)` and `Infof(format)` emit `fmt.Sprintf(format)`.
`List` calls both with the assembled report as `format` and no operands, so every `%`
in the report starts a verb for which no operand is left. -/

/-- Go `parsenum` of package `fmt`: read a decimal number.  Returns whether a number was
read and the unread rest; a number above `1e6` gives up and consumes everything. -/
def parsenum (num : Nat) (isnum : Bool) : List Char → Bool × List Char
  | [] => (isnum, [])
  | c :: cs =>
    if c.isDigit then
      if num > 1000000 then (false, [])
      else parsenum (num * 10 + (c.toNat - 48)) true cs
    else (isnum, c :: cs)

/-- Go `(*pp).argNumber` with `parseArgNumber`, for a call without operands: an explicit
argument index `[n]`.  Returns the unread rest, whether a well-formed index was read,
and whether a bracket was seen (no index is in range, so a bracket always clears
`goodArgNum`).  A bracket that is never closed skips only the bracket. -/
def argNumber (s : List Char) : List Char × Bool × Bool :=
  match s with
  | '[' :: after =>
    if after.length < 2 then (after, false, true)
    else if after.contains ']' then
      match parsenum 0 false (after.takeWhile (fun c => c != ']')) with
      | (true, []) => ((after.dropWhile (fun c => c != ']')).drop 1, true, true)
      | _ => ((after.dropWhile (fun c => c != ']')).drop 1, false, true)
    else (after, false, true)
  | _ => (s, false, false)

/-- The flag characters skipped after `%` in `doPrintf`. -/
def isFlag (c : Char) : Bool :=
  c == '#' || c == '0' || c == '+' || c == '-' || c == ' '

/-- The state of `doPrintf` while it reads one verb: the text written so far for this
verb, the unread rest of the format, and the variables `afterIndex` and `goodArgNum`. -/
structure VerbState where
  out : List Char
  rest : List Char
  afterIndex : Bool
  goodArgNum : Bool

/-- The step "do we have an explicit argument index?" of `doPrintf`. -/
def parseIndex (st : VerbState) : VerbState :=
  let idx := argNumber st.rest
  { st with rest := idx.1, afterIndex := idx.2.1, goodArgNum := st.goodArgNum && !idx.2.2 }

/-- The step "do we have width?" of `doPrintf`: a `*` finds no operand and writes
`%!(BADWIDTH)`; otherwise a number is read. -/
def parseWidth (st : VerbState) : VerbState :=
  match st.rest with
  | '*' :: t =>
    { st with out := st.out ++ "%!(BADWIDTH)".toList, rest := t, afterIndex := false }
  | _ =>
    let r := parsenum 0 false st.rest
    { st with rest := r.2, goodArgNum := st.goodArgNum && !(st.afterIndex && r.1) }

/-- The step "do we have precision?" of `doPrintf`: after a `.`, an optional index and
then a `*`, which finds no operand and writes `%!(BADPREC)`, or a number. -/
def parsePrecision (st : VerbState) : VerbState :=
  match st.rest with
  | '.' :: t =>
    let idx := argNumber t
    let good := st.goodArgNum && !st.afterIndex && !idx.2.2
    match idx.1 with
    | '*' :: t' =>
      { out := st.out ++ "%!(BADPREC)".toList, rest := t', afterIndex := false,
        goodArgNum := good }
    | _ =>
      { out := st.out, rest := (parsenum 0 false idx.1).2, afterIndex := idx.2.1,
        goodArgNum := good }
  | _ => st

/-- Everything `doPrintf` reads between a `%` and its verb: flags, index, width,
precision, index. -/
def parseVerb (s : List Char) : VerbState :=
  let st := parsePrecision (parseWidth (parseIndex ⟨[], s.dropWhile isFlag, false, true⟩))
  if st.afterIndex then st else parseIndex st

/-- The verb itself, for a call without operands: `%%` writes `%`; a format that ends
before the verb writes `%!(NOVERB)`; any other verb writes `%!v(BADINDEX)` after a bad
index and `%!v(MISSING)` otherwise, `v` being the verb. -/
def printVerb (st : VerbState) : List Char × List Char :=
  match st.rest with
  | [] => (st.out ++ "%!(NOVERB)".toList, [])
  | verb :: rest =>
    if verb = '%' then (st.out ++ ['%'], rest)
    else if !st.goodArgNum then
      (st.out ++ "%!".toList ++ [verb] ++ "(BADINDEX)".toList, rest)
    else (st.out ++ "%!".toList ++ [verb] ++ "(MISSING)".toList, rest)

/-- What `doPrintf` writes for the text after one `%`, and the unread rest. -/
def doVerb (s : List Char) : List Char × List Char :=
  printVerb (parseVerb s)

/-- Go `(*pp).doPrintf(format, a)` with no operands: text up to a `%` is copied, and each
`%` is handled by `doVerb`.  The first argument bounds the number of steps; the length
of the format is enough (`doPrintf_fuel`). -/
def doPrintf : Nat → List Char → List Char
  | 0, _ => []
  | _ + 1, [] => []
  | fuel + 1, c :: cs =>
    if c = '%' then (doVerb cs).1 ++ doPrintf fuel (doVerb cs).2
    else c :: doPrintf fuel cs

/-- Go `fmt.Sprintf(format)` with no operands. -/
def Sprintf (format : String) : String :=
  String.mk (doPrintf format.length format.toList)

/-! ## Collaborators and the event trace -/

/-- A prepared backend handle (`backends.Backend`); `List` only passes it on and
closes it. -/
structure Backend where
  name : String
deriving DecidableEq, Repr

/-- The collaborators of `List` that are not defined in list.go.  Each field gives the
result of the corresponding call. -/
structure Env where
  /-- Result of `prepareBackend(ctx, jobInfo, target, nil)`. -/
  prepareBackend : JobInfo → String → Except Error Backend
  /-- Result of `getCacheDir(target)`. -/
  getCacheDir : String → Except Error String
  /-- Result of `syncCache(ctx, jobInfo, localCachePath, backend)`:
  `(safeManifests, localOnlyFiles)` or an error. -/
  syncCache : JobInfo → String → Backend → Except Error (List String × List String)
  /-- Result of `helpers.ExtractLocal(ctx, j, manifestPath)`: the payload stream. -/
  ExtractLocal : JobInfo → String → Except Error String
  /-- Result of `json.NewDecoder(manifestVol).Decode(decodedManifest)`. -/
  jsonDecode : String → Except Error JobInfo
  /-- Result of `filepath.Join(dir, name)`. -/
  Join : String → String → String
  /-- Result of the manifest renderer, `(*JobInfo).String()`. -/
  manifestString : JobInfo → String

/-- What one run of `List` does that is visible outside it: the calls to collaborators
and to `helpers.AppLogger`, in program order.  `Errorf` and `Warningf` are called with a
constant format and string operands, which `%s` and `%v` insert unchanged; their events
carry the resulting message.  `Infof` and `Noticef` are called with the assembled text
as the format and no operands; their events carry that format, and the message emitted
is `Sprintf` of it. -/
inductive Event where
  | prepareBackend (target : String)
  | backendClose (backend : Backend)
  | getCacheDir (target : String)
  | syncCache (localCachePath : String)
  | extractLocal (manifestPath : String)
  | manifestVolClose (manifestPath : String)
  | cancel
  | errorf (msg : String)
  | warningf (msg : String)
  | infof (format : String)
  | noticef (format : String)
deriving DecidableEq, Repr

/-- How a run of `List` ends: a run-time panic (indexing an empty `Destinations`), or a
return with `nil` (`none`) or with an error. -/
inductive Outcome where
  | panic
  | returned (err : Option Error)
deriving DecidableEq, Repr

/-- One run of `List`: its event trace and its outcome. -/
structure Run where
  events : List Event
  outcome : Outcome
deriving DecidableEq, Repr

/-- The formats handed to `AppLogger.Noticef` in a trace. -/
def noticeFormatsOf (evs : List Event) : List String :=
  evs.filterMap (fun e => match e with | .noticef format => some format | _ => none)

/-- The formats handed to `AppLogger.Infof` in a trace. -/
def infoFormatsOf (evs : List Event) : List String :=
  evs.filterMap (fun e => match e with | .infof format => some format | _ => none)

/-- The formats handed to `AppLogger.Noticef` during a run. -/
def Run.noticeFormats (r : Run) : List String :=
  noticeFormatsOf r.events

/-- The formats handed to `AppLogger.Infof` during a run. -/
def Run.infoFormats (r : Run) : List String :=
  infoFormatsOf r.events

/-- The messages emitted at notice level during a run: the primary inventory. -/
def Run.notices (r : Run) : List String :=
  r.noticeFormats.map Sprintf

/-- The messages emitted at info level during a run: the local-only warning. -/
def Run.infos (r : Run) : List String :=
  r.infoFormats.map Sprintf

/-- The function `readManifest` (list.go, lines 112-126): extract the payload, decode it, and close
the payload stream on every path on which it was opened. -/
def readManifest (env : Env) (manifestPath : String) (j : JobInfo) :
    List Event × Except Error JobInfo :=
  match env.ExtractLocal j manifestPath with
  | .error err => ([.extractLocal manifestPath], .error err)
  | .ok manifestVol =>
    match env.jsonDecode manifestVol with
    | .error err =>
      ([.extractLocal manifestPath, .manifestVolClose manifestPath], .error err)
    | .ok decodedManifest =>
      ([.extractLocal manifestPath, .manifestVolClose manifestPath], .ok decodedManifest)

/-- The loop over `safeManifests` (list.go, lines 66-75): decode each verified manifest
in order, appending to `decodedManifests`; the first failure is logged and returned. -/
def decodeManifests (env : Env) (jobInfo : JobInfo) (localCachePath : String) :
    List String → List Event × Except Error (List JobInfo)
  | [] => ([], .ok [])
  | manifest :: rest =>
    let manifestPath := env.Join localCachePath manifest
    match readManifest env manifestPath jobInfo with
    | (evs, .error oerr) =>
      (evs ++ [.errorf ("Could not read manifest " ++ manifestPath ++
        " due to error - " ++ oerr)], .error oerr)
    | (evs, .ok decodedManifest) =>
      match decodeManifests env jobInfo localCachePath rest with
      | (evs', .error oerr) => (evs ++ evs', .error oerr)
      | (evs', .ok decodedManifests) => (evs ++ evs', .ok (decodedManifest :: decodedManifests))

/-- The loop over `localOnlyFiles` (list.go, lines 95-103): decode each local-only
manifest; a failure is logged as a warning and skipped, a success appends the rendered
manifest.  Returns the events and the lines appended to `localOnlyOuput`. -/
def readLocalOnly (env : Env) (jobInfo : JobInfo) (localCachePath : String) :
    List String → List Event × List String
  | [] => ([], [])
  | filename :: rest =>
    let manifestPath := env.Join localCachePath filename
    match readManifest env manifestPath jobInfo with
    | (evs, .error derr) =>
      (evs ++ [.warningf ("Could not read local only manifest " ++ manifestPath ++
        " due to error " ++ derr)] ++ (readLocalOnly env jobInfo localCachePath rest).1,
       (readLocalOnly env jobInfo localCachePath rest).2)
    | (evs, .ok decodedManifest) =>
      (evs ++ (readLocalOnly env jobInfo localCachePath rest).1,
       env.manifestString decodedManifest :: (readLocalOnly env jobInfo localCachePath rest).2)

/-- What `readManifest` returns for the cache file `filename` of `localCachePath`. -/
def decodes (env : Env) (jobInfo : JobInfo) (localCachePath filename : String) :
    Except Error JobInfo :=
  (readManifest env (env.Join localCachePath filename) jobInfo).2

/-- The manifests of the files that `readManifest` decodes without error, in the order
of the files. -/
def decodable (env : Env) (jobInfo : JobInfo) (localCachePath : String)
    (files : List String) : List JobInfo :=
  files.filterMap (fun filename =>
    match decodes env jobInfo localCachePath filename with
    | .ok decodedManifest => some decodedManifest
    | .error _ => none)

/-- The first line of `output` (list.go, line 87). -/
def foundHeader (n : Nat) : String :=
  "Found " ++ toString n ++ " backup sets:\n"

/-- The line appended to `output` when there are local-only files (list.go, line 93). -/
def localOnlyCountLine (n : Nat) : String :=
  "There are " ++ toString n ++
    " manifests found locally that are not on the target destination."

/-- The first line of `localOnlyOuput` (list.go, line 94). -/
def localOnlyHeading : String :=
  "The following manifests were found locally and can be removed using the clean command."

/-- The part of `List` after a successful sync (list.go, lines 65-109), up to the
deferred calls: decode, sort, render, report local-only files, log. -/
def listReport (env : Env) (jobInfo : JobInfo) (localCachePath : String)
    (safeManifests localOnlyFiles : List String) : List Event × Option Error :=
  match decodeManifests env jobInfo localCachePath safeManifests with
  | (evs, .error oerr) => (evs, some oerr)
  | (evs, .ok decodedManifests) =>
    let sorted := sortManifests decodedManifests
    let output := [foundHeader decodedManifests.length] ++ sorted.map env.manifestString
    if localOnlyFiles.length > 0 then
      let output := output ++ [localOnlyCountLine localOnlyFiles.length]
      let localOnly := readLocalOnly env jobInfo localCachePath localOnlyFiles
      (evs ++ localOnly.1 ++
        [.infof (String.intercalate "\n" (localOnlyHeading :: localOnly.2)),
         .noticef (String.intercalate "\n" output)], none)
    else
      (evs ++ [.noticef (String.intercalate "\n" output)], none)

/-! ## The cache synchroniser -/

/-- Modelled from the spec: what `synchronize` (`syncCache`, which is not in list.go)
consumes.  The remote listing either fails or yields the remote manifest keys; the local
cache directory holds `localFiles`; fetching a key yields its bytes or fails; writing a
fetched key into the cache succeeds or fails. -/
structure SyncInput where
  remoteKeys : Except Error (List String)
  localFiles : List String
  fetch : String → Except Error String
  writeOk : String → Bool

/-- Modelled from the spec: what `synchronize` produces, together with its effect on
the cache directory (`cacheFiles`, the files present on return) and the keys it issued a
fetch for. -/
structure SyncOutput where
  verified : List String
  orphaned : List String
  cacheFiles : List String
  fetched : List String
deriving DecidableEq, Repr

/-- Modelled from the spec: whether a remote key that is missing locally ends up as a
local cache file: its fetch yields bytes and its write into the cache succeeds. -/
def materialises (inp : SyncInput) (key : String) : Bool :=
  match inp.fetch key with
  | .ok _ => inp.writeOk key
  | .error _ => false

/-- Modelled from the spec: `synchronize` (`syncCache`, which is not in list.go), after
sections 3 and 4.1.  A failed remote listing aborts the operation.  Every remote key
that is not present locally is fetched and written under its own name; a failed fetch
or write is reported and the other keys are still processed.  Existing local files are
never deleted.  The verified names are the remote keys that are local cache files on
return (a key whose write failed is excluded), and the orphaned names are the local
file names that are not remote keys. -/
def synchronize (inp : SyncInput) : Except Error SyncOutput :=
  match inp.remoteKeys with
  | .error err => .error err
  | .ok remote =>
    let missing := remote.filter (fun key => decide (key ∉ inp.localFiles))
    let cacheFiles := inp.localFiles ++ missing.filter (materialises inp)
    .ok { verified := remote.filter (fun key => decide (key ∈ cacheFiles))
          orphaned := inp.localFiles.filter (fun file => decide (file ∉ remote))
          cacheFiles := cacheFiles
          fetched := missing }

/-- Modelled from the spec: what `syncCache` returns to `List` for a sync: the verified
names as `safeManifests` and the orphaned names as `localOnlyFiles`, or the error of
the remote listing. -/
def syncCacheOf (inp : SyncInput) : Except Error (List String × List String) :=
  match synchronize inp with
  | .error err => .error err
  | .ok out => .ok (out.verified, out.orphaned)

/-- Setup and sync succeed for the job: the first destination exists, its backend is
prepared, its cache directory resolves to `localCachePath`, and the sync returns
`safeManifests` and `localOnlyFiles`. -/
def syncedTo (env : Env) (jobInfo : JobInfo) (localCachePath : String)
    (safeManifests localOnlyFiles : List String) : Prop :=
  ∃ target rest backend, jobInfo.Destinations = target :: rest ∧
    env.prepareBackend jobInfo target = .ok backend ∧
    env.getCacheDir target = .ok localCachePath ∧
    env.syncCache jobInfo localCachePath backend = .ok (safeManifests, localOnlyFiles)

/-- The function `List` (list.go, lines 38-110).  The deferred `backend.Close()` and `cancel()` run,
in that order, on every return after they were registered. -/
def List (env : Env) (jobInfo : JobInfo) : Run :=
  match jobInfo.Destinations with
  | [] => ⟨[.cancel], .panic⟩
  | target :: _ =>
    match env.prepareBackend jobInfo target with
    | .error berr =>
      ⟨[.prepareBackend target,
        .errorf ("Could not initialize backend for target " ++ target ++
          " due to error - " ++ berr ++ "."),
        .cancel], .returned (some berr)⟩
    | .ok backend =>
      match env.getCacheDir target with
      | .error cerr =>
        ⟨[.prepareBackend target, .getCacheDir target,
          .errorf ("Could not get cache dir for target " ++ target ++
            " due to error - " ++ cerr ++ "."),
          .backendClose backend, .cancel], .returned (some cerr)⟩
      | .ok localCachePath =>
        match env.syncCache jobInfo localCachePath backend with
        | .error serr =>
          ⟨[.prepareBackend target, .getCacheDir target, .syncCache localCachePath,
            .errorf ("Could not sync cache dir for target " ++ target ++
              " due to error - " ++ serr ++ "."),
            .backendClose backend, .cancel], .returned (some serr)⟩
        | .ok (safeManifests, localOnlyFiles) =>
          ⟨[.prepareBackend target, .getCacheDir target, .syncCache localCachePath] ++
            (listReport env jobInfo localCachePath safeManifests localOnlyFiles).1 ++
            [.backendClose backend, .cancel],
           .returned (listReport env jobInfo localCachePath safeManifests localOnlyFiles).2⟩

end backup

open backup hiding List

/-! ## Example data -/

/-- An early instant (`T1`). -/
def exT1 : Time := ⟨1500000000, 0, "UTC"⟩

/-- A later instant (`T2`). -/
def exT2 : Time := ⟨1500003600, 0, "UTC"⟩

/-- Manifest `(A, t1)`. -/
def exA1 : JobInfo := ⟨"A", ⟨exT1⟩, ["s3://bucket"], "full"⟩

/-- Manifest `(A, t2)`. -/
def exA2 : JobInfo := ⟨"A", ⟨exT2⟩, ["s3://bucket"], "full"⟩

/-- Manifest `(B, t1)`. -/
def exB1 : JobInfo := ⟨"B", ⟨exT1⟩, ["s3://bucket"], "full"⟩

/-- A second manifest for `(A, t1)`: an incremental backup of the same base snapshot. -/
def exA1incr : JobInfo := ⟨"A", ⟨exT1⟩, ["s3://bucket"], "incremental"⟩

/-- A manifest for `(A, t1)` whose creation time is written in another time zone. -/
def exA1zone : JobInfo := ⟨"A", ⟨⟨1500000000, 0, "CET"⟩⟩, ["s3://bucket"], "full"⟩

/-- The job handed to `List` in the examples: one destination. -/
def exJob : JobInfo := ⟨"", ⟨⟨0, 0, "UTC"⟩⟩, ["s3://bucket"], ""⟩

/-- Manifest `m1`: volume `vol-a`, created at `T1`. -/
def exM1 : JobInfo := ⟨"vol-a", ⟨exT1⟩, ["s3://bucket"], "m1"⟩

/-- Manifest `m2`: volume `vol-a`, created at `T2`. -/
def exM2 : JobInfo := ⟨"vol-a", ⟨exT2⟩, ["s3://bucket"], "m2"⟩

/-- Manifest held by the stale cache file. -/
def exStale : JobInfo := ⟨"vol-old", ⟨exT1⟩, ["s3://bucket"], "stale"⟩

/-- Manifest of a volume whose name contains a percent sign. -/
def exPct : JobInfo := ⟨"tank/50%data", ⟨exT1⟩, ["s3://bucket"], "pct"⟩

/-- An example environment with the given results of backend preparation, cache
directory resolution and sync.  The cache files `m1`, `m2`, `stale.json` and `pct`
decode, the file `corrupt` cannot be extracted, and any other file is not valid JSON. -/
def exEnv (prep : Except Error Backend) (cacheDir : Except Error String)
    (sync : Except Error (List String × List String)) : Env where
  prepareBackend := fun _ _ => prep
  getCacheDir := fun _ => cacheDir
  syncCache := fun _ _ _ => sync
  ExtractLocal := fun _ p => if p = "/cache/corrupt" then .error "unexpected EOF" else .ok p
  jsonDecode := fun p =>
    if p = "/cache/m1" then .ok exM1
    else if p = "/cache/m2" then .ok exM2
    else if p = "/cache/stale.json" then .ok exStale
    else if p = "/cache/pct" then .ok exPct
    else .error "invalid character"
  Join := fun dir name => dir ++ "/" ++ name
  manifestString := fun m => "Volume: " ++ m.VolumeName ++ " (" ++ m.Opaque ++ ")"

/-- A sync in which the remote holds `m1` and `m2`, the cache holds `m1` and
`stale.json`, and the write of the fetched `m2` fails or succeeds as given. -/
def exSyncInput (writeOk : Bool) : SyncInput where
  remoteKeys := .ok ["m1", "m2"]
  localFiles := ["m1", "stale.json"]
  fetch := fun key => .ok ("bytes of " ++ key)
  writeOk := fun _ => writeOk

/-- The example environment in which setup succeeds and `syncCache` performs the given
sync. -/
def exSyncedBy (inp : SyncInput) : Env :=
  exEnv (.ok ⟨"s3"⟩) (.ok "/cache") (syncCacheOf inp)

/-- The example environment in which setup succeeds and the sync returns the given
verified and local-only file names. -/
def exSynced (safeManifests localOnlyFiles : List String) : Env :=
  exEnv (.ok ⟨"s3"⟩) (.ok "/cache") (.ok (safeManifests, localOnlyFiles))

/-! ## The comparator -/

theorem stringsCompare_eq_zero_iff (a b : String) : stringsCompare a b = 0 ↔ a = b := by
  unfold stringsCompare
  by_cases h : a = b
  · simp [h]
  · simp only [h, if_false, iff_false]
    split <;> decide

theorem stringsCompare_neg_iff (a b : String) : stringsCompare a b < 0 ↔ a < b := by
  unfold stringsCompare
  rw [String.lt_iff_toList_lt]
  by_cases h : a = b
  · subst h
    simp
  · simp only [h, if_false]
    by_cases h2 : a.toList < b.toList
    · rw [if_pos h2]
      exact ⟨fun _ => h2, fun _ => by decide⟩
    · rw [if_neg h2]
      exact ⟨fun hc => absurd hc (by decide), fun hc => absurd hc h2⟩

theorem Time_Before_iff (t u : Time) :
    t.Before u = true ↔ t.sec < u.sec ∨ (t.sec = u.sec ∧ t.nsec < u.nsec) := by
  simp [Time.Before]

theorem less_iff (a b : JobInfo) :
    less a b = true ↔
      a.VolumeName < b.VolumeName ∨
        (a.VolumeName = b.VolumeName ∧
          a.BaseSnapshot.CreationTime.Before b.BaseSnapshot.CreationTime = true) := by
  unfold less
  by_cases h : a.VolumeName = b.VolumeName
  · have h0 : stringsCompare a.VolumeName b.VolumeName = 0 :=
      (stringsCompare_eq_zero_iff _ _).2 h
    rw [if_pos h0]
    simp [h]
  · have h0 : ¬ stringsCompare a.VolumeName b.VolumeName = 0 :=
      fun hc => h ((stringsCompare_eq_zero_iff _ _).1 hc)
    rw [if_neg h0]
    simp [h, stringsCompare_neg_iff]

theorem less_iff_sortKey_lt (a b : JobInfo) : less a b = true ↔ sortKey a < sortKey b := by
  rw [less_iff, Time_Before_iff]
  simp only [sortKey, Prod.Lex.lt_iff, ofLex_toLex]

theorem sortKey_eq_iff (a b : JobInfo) : sortKey a = sortKey b ↔ sameKey a b = true := by
  simp only [sortKey, sameKey, Time.Equal, toLex_inj, Prod.mk.injEq, Bool.and_eq_true,
    decide_eq_true_eq]

theorem sameKey_iff (a b : JobInfo) :
    sameKey a b = true ↔
      a.VolumeName = b.VolumeName ∧
        a.BaseSnapshot.CreationTime.Equal b.BaseSnapshot.CreationTime = true := by
  simp only [sameKey, Bool.and_eq_true, decide_eq_true_eq]

theorem sortKey_le_iff_inOrder (a b : JobInfo) : sortKey a ≤ sortKey b ↔ inOrder a b := by
  rw [← not_lt, ← less_iff_sortKey_lt, less_iff, inOrder]
  constructor
  · intro h
    rcases lt_trichotomy a.VolumeName b.VolumeName with h1 | h1 | h1
    · exact Or.inl h1
    · refine Or.inr ⟨h1, ?_⟩
      cases hb : b.BaseSnapshot.CreationTime.Before a.BaseSnapshot.CreationTime
      · rfl
      · exact absurd (Or.inr ⟨h1.symm, hb⟩) h
    · exact absurd (Or.inl h1) h
  · rintro (h1 | ⟨h1, h2⟩) (h3 | ⟨h3, h4⟩)
    · exact lt_asymm h1 h3
    · exact absurd h3.symm (ne_of_lt h1)
    · exact absurd h1 (ne_of_gt h3)
    · rw [h2] at h4
      exact absurd h4 (by decide)

/-! ## The stable sort -/

section StableSort

variable {α K : Type} [LinearOrder K] (lt : α → α → Bool) (f : α → K)

theorem bubbleLeft_perm (x : α) (l : List α) : (bubbleLeft lt x l).Perm (x :: l) := by
  induction l with
  | nil => simp [bubbleLeft]
  | cons p ps ih =>
    unfold bubbleLeft
    split
    · exact (List.Perm.cons p ih).trans (List.Perm.swap x p ps)
    · exact List.Perm.refl _

theorem foldl_bubbleLeft_perm (xs acc : List α) :
    (xs.foldl (fun sortedRev x => bubbleLeft lt x sortedRev) acc).Perm (xs ++ acc) := by
  induction xs generalizing acc with
  | nil => simp
  | cons x xs ih =>
    simp only [List.foldl_cons, List.cons_append]
    exact (ih _).trans ((List.Perm.append_left xs (bubbleLeft_perm lt x acc)).trans
      List.perm_middle)

theorem sortSliceStable_perm (xs : List α) : (sortSliceStable lt xs).Perm xs := by
  unfold sortSliceStable
  have h := foldl_bubbleLeft_perm lt xs []
  rw [List.append_nil] at h
  exact (List.reverse_perm _).trans h

variable (hlt : ∀ a b, lt a b = true ↔ f a < f b)
include hlt

theorem bubbleLeft_descending (x : α) (l : List α)
    (hl : l.Pairwise (fun p q => f q ≤ f p)) :
    (bubbleLeft lt x l).Pairwise (fun p q => f q ≤ f p) := by
  induction l with
  | nil => simp [bubbleLeft]
  | cons p ps ih =>
    rw [List.pairwise_cons] at hl
    unfold bubbleLeft
    split
    · rename_i hxp
      rw [List.pairwise_cons]
      refine ⟨?_, ih hl.2⟩
      intro q hq
      rcases List.mem_cons.1 ((bubbleLeft_perm lt x ps).mem_iff.1 hq) with h1 | h1
      · rw [h1]
        exact le_of_lt ((hlt x p).1 hxp)
      · exact hl.1 q h1
    · rename_i hxp
      have hpx : f p ≤ f x := not_lt.1 (fun h => hxp ((hlt x p).2 h))
      rw [List.pairwise_cons]
      refine ⟨?_, List.pairwise_cons.2 hl⟩
      intro q hq
      rcases List.mem_cons.1 hq with h1 | h1
      · rw [h1]
        exact hpx
      · exact le_trans (hl.1 q h1) hpx

theorem foldl_bubbleLeft_descending (xs acc : List α)
    (hacc : acc.Pairwise (fun p q => f q ≤ f p)) :
    (xs.foldl (fun sortedRev x => bubbleLeft lt x sortedRev) acc).Pairwise
      (fun p q => f q ≤ f p) := by
  induction xs generalizing acc with
  | nil => simpa using hacc
  | cons x xs ih =>
    simp only [List.foldl_cons]
    exact ih _ (bubbleLeft_descending lt f hlt x acc hacc)

theorem sortSliceStable_sorted (xs : List α) :
    (sortSliceStable lt xs).Pairwise (fun a b => f a ≤ f b) := by
  unfold sortSliceStable
  rw [List.pairwise_reverse]
  exact foldl_bubbleLeft_descending lt f hlt xs [] List.Pairwise.nil

theorem bubbleLeft_filter (k : K) (p : α → Bool) (hp : ∀ a, p a = true ↔ f a = k)
    (x : α) (l : List α) :
    (bubbleLeft lt x l).filter p = (x :: l).filter p := by
  induction l with
  | nil => simp [bubbleLeft]
  | cons q qs ih =>
    unfold bubbleLeft
    split
    · rename_i hxq
      have hne : f x ≠ f q := ne_of_lt ((hlt x q).1 hxq)
      by_cases hx : p x = true
      · have hq : ¬ p q = true :=
          fun h => hne (((hp x).1 hx).trans ((hp q).1 h).symm)
        rw [List.filter_cons_of_neg hq, ih, List.filter_cons_of_pos hx,
          List.filter_cons_of_pos hx, List.filter_cons_of_neg hq]
      · rw [List.filter_cons_of_neg (l := q :: qs) hx]
        by_cases hq : p q = true
        · rw [List.filter_cons_of_pos hq, ih, List.filter_cons_of_neg hx,
            List.filter_cons_of_pos hq]
        · rw [List.filter_cons_of_neg hq, ih, List.filter_cons_of_neg hx,
            List.filter_cons_of_neg hq]
    · rfl

theorem foldl_bubbleLeft_filter (k : K) (p : α → Bool) (hp : ∀ a, p a = true ↔ f a = k)
    (xs acc : List α) :
    (xs.foldl (fun sortedRev x => bubbleLeft lt x sortedRev) acc).filter p =
      (xs.filter p).reverse ++ acc.filter p := by
  induction xs generalizing acc with
  | nil => simp
  | cons x xs ih =>
    simp only [List.foldl_cons]
    rw [ih, bubbleLeft_filter lt f hlt k p hp]
    by_cases hx : p x = true
    · rw [List.filter_cons_of_pos hx, List.filter_cons_of_pos hx]
      simp
    · rw [List.filter_cons_of_neg hx, List.filter_cons_of_neg hx]

theorem sortSliceStable_filter (k : K) (p : α → Bool) (hp : ∀ a, p a = true ↔ f a = k)
    (xs : List α) :
    (sortSliceStable lt xs).filter p = xs.filter p := by
  unfold sortSliceStable
  rw [List.filter_reverse, foldl_bubbleLeft_filter lt f hlt k p hp]
  simp

end StableSort

theorem filter_tie_cons_pos {α : Type} (p : α → α → Bool) (x y : α) (l : List α) (h : p y x = true) :
    (y :: l).filter (fun z => p z x) = y :: l.filter (fun z => p z x) :=
  List.filter_cons_of_pos h

theorem filter_tie_cons_neg {α : Type} (p : α → α → Bool) (x y : α) (l : List α) (h : ¬ p y x = true) :
    (y :: l).filter (fun z => p z x) = l.filter (fun z => p z x) :=
  List.filter_cons_of_neg h

theorem stable_sorted_unique {α K : Type} [LinearOrder K] (f : α → K) (p : α → α → Bool) (hp : ∀ a x, p a x = true ↔ f a = f x) :
    ∀ l₁ l₂ : List α, l₁.Pairwise (fun a b => f a ≤ f b) →
      l₂.Pairwise (fun a b => f a ≤ f b) →
      (∀ x, l₁.filter (fun a => p a x) = l₂.filter (fun a => p a x)) → l₁ = l₂
  | [], [], _, _, _ => rfl
  | [], b :: t₂, _, _, h => by
    have hb := h b
    rw [filter_tie_cons_pos p b b t₂ ((hp b b).2 rfl)] at hb
    simp at hb
  | a :: t₁, [], _, _, h => by
    have ha := h a
    rw [filter_tie_cons_pos p a a t₁ ((hp a a).2 rfl)] at ha
    simp at ha
  | a :: t₁, b :: t₂, h₁, h₂, h => by
    rw [List.pairwise_cons] at h₁ h₂
    have hba : f b ≤ f a := by
      have hmem : a ∈ (b :: t₂).filter (fun y => p y a) := by
        rw [← h a, filter_tie_cons_pos p a a t₁ ((hp a a).2 rfl)]
        exact List.mem_cons_self _ _
      rcases List.mem_cons.1 (List.mem_filter.1 hmem).1 with e | e
      · rw [e]
      · exact h₂.1 a e
    have hab : f a ≤ f b := by
      have hmem : b ∈ (a :: t₁).filter (fun y => p y b) := by
        rw [h b, filter_tie_cons_pos p b b t₂ ((hp b b).2 rfl)]
        exact List.mem_cons_self _ _
      rcases List.mem_cons.1 (List.mem_filter.1 hmem).1 with e | e
      · rw [e]
      · exact h₁.1 b e
    have hfe : f a = f b := le_antisymm hab hba
    have htail : ∀ x, (a :: t₁).filter (fun y => p y x) = (b :: t₂).filter (fun y => p y x) →
        (p a x = true → a = b) ∧ t₁.filter (fun y => p y x) = t₂.filter (fun y => p y x) := by
      intro x hx
      by_cases hax : p a x = true
      · have hbx : p b x = true := (hp b x).2 (hfe ▸ (hp a x).1 hax)
        rw [filter_tie_cons_pos p x a t₁ hax, filter_tie_cons_pos p x b t₂ hbx] at hx
        injection hx with e1 e2
        exact ⟨fun _ => e1, e2⟩
      · have hbx : ¬ p b x = true := fun hb => hax ((hp a x).2 (hfe ▸ (hp b x).1 hb))
        rw [filter_tie_cons_neg p x a t₁ hax, filter_tie_cons_neg p x b t₂ hbx] at hx
        exact ⟨fun hc => absurd hc hax, hx⟩
    have e : a = b := (htail a (h a)).1 ((hp a a).2 rfl)
    rw [e, stable_sorted_unique f p hp t₁ t₂ h₁.2 h₂.2 (fun x => (htail x (h x)).2)]

theorem map_eq_of_map_key_eq {α K β : Type} (f : α → K) (g : α → β) :
    ∀ (xs ys : List α), xs.map f = ys.map f →
      (∀ a ∈ xs, ∀ b ∈ ys, f a = f b → g a = g b) → xs.map g = ys.map g
  | [], [], _, _ => rfl
  | [], _ :: _, h, _ => by simp at h
  | _ :: _, [], h, _ => by simp at h
  | x :: xs, y :: ys, h, hg => by
    simp only [List.map_cons, List.cons.injEq] at h
    simp only [List.map_cons, List.cons.injEq]
    refine ⟨hg x (List.mem_cons_self _ _) y (List.mem_cons_self _ _) h.1, ?_⟩
    exact map_eq_of_map_key_eq f g xs ys h.2 (fun a ha b hb =>
      hg a (List.mem_cons_of_mem _ ha) b (List.mem_cons_of_mem _ hb))

theorem sortManifests_perm (ms : List JobInfo) : (sortManifests ms).Perm ms :=
  sortSliceStable_perm less ms

theorem sortManifests_sorted (ms : List JobInfo) :
    (sortManifests ms).Pairwise (fun a b => sortKey a ≤ sortKey b) :=
  sortSliceStable_sorted less sortKey less_iff_sortKey_lt ms

theorem sortManifests_keys_eq_of_perm (l l' : List JobInfo) (h : l'.Perm l) :
    (sortManifests l').map sortKey = (sortManifests l).map sortKey := by
  have hp : ((sortManifests l').map sortKey).Perm ((sortManifests l).map sortKey) :=
    (((sortManifests_perm l').trans h).trans (sortManifests_perm l).symm).map sortKey
  have h1 : ((sortManifests l').map sortKey).Sorted (· ≤ ·) :=
    List.pairwise_map.2 (sortManifests_sorted l')
  have h2 : ((sortManifests l).map sortKey).Sorted (· ≤ ·) :=
    List.pairwise_map.2 (sortManifests_sorted l)
  exact List.eq_of_perm_of_sorted hp h1 h2

theorem sortManifests_filter_sameKey (ms : List JobInfo) (m : JobInfo) :
    (sortManifests ms).filter (fun a => sameKey a m) = ms.filter (fun a => sameKey a m) :=
  sortSliceStable_filter less sortKey less_iff_sortKey_lt (sortKey m)
    (fun a => sameKey a m) (fun a => (sortKey_eq_iff a m).symm) ms

/-- Any output that meets the contract of `sort.SliceStable` for the comparator of
`List` (sorted, with tying manifests in their original order) is the output of the
embedded sort, whatever the algorithm that produced it. -/
theorem sortManifests_unique (ms out : List JobInfo)
    (hsorted : out.Pairwise (fun a b => less b a = false))
    (hstable : ∀ m, out.filter (fun a => sameKey a m) = ms.filter (fun a => sameKey a m)) :
    out = sortManifests ms := by
  refine stable_sorted_unique sortKey sameKey (fun a x => (sortKey_eq_iff a x).symm) out
    (sortManifests ms) ?_ (sortManifests_sorted ms) ?_
  · exact hsorted.imp (fun {a b} h => by
      rw [← not_lt, ← less_iff_sortKey_lt, h]
      decide)
  · intro m
    rw [hstable m, sortManifests_filter_sameKey ms m]

theorem sameKey_refl (a : JobInfo) : sameKey a a = true :=
  (sortKey_eq_iff a a).1 rfl

theorem sortManifests_three (m1 m2 m3 : JobInfo) (h13 : m1.VolumeName = m3.VolumeName)
    (h12 : m1.VolumeName < m2.VolumeName)
    (ht : m3.BaseSnapshot.CreationTime.Before m1.BaseSnapshot.CreationTime = true) :
    sortManifests [m1, m2, m3] = [m3, m1, m2] := by
  have e21 : less m2 m1 = false := by
    rw [Bool.eq_false_iff]
    intro h
    rcases (less_iff m2 m1).1 h with h | h
    · exact lt_asymm h h12
    · exact absurd h.1.symm (ne_of_lt h12)
  have e32 : less m3 m2 = true := (less_iff m3 m2).2 (Or.inl (h13 ▸ h12))
  have e31 : less m3 m1 = true := (less_iff m3 m1).2 (Or.inr ⟨h13.symm, ht⟩)
  simp [sortManifests, sortSliceStable, bubbleLeft, e21, e32, e31]

/-! ## Ordering of the rendered manifests -/

/-- C1: for every list of decoded manifests, the sequence `List` renders is a permutation
of the list in which every manifest is in order with the one rendered right after it
(and with every later one): the volume name is smaller, or the names are equal and the
later manifest was not created before the earlier one.  The input
`[(A,t2),(B,t1),(A,t1)]` with `A < B` and `t1` before `t2` is rendered as
`[(A,t1),(A,t2),(B,t1)]`. -/
theorem sortManifests_perm_inOrder :
    (∀ ms : List JobInfo,
      (sortManifests ms).Perm ms ∧ (sortManifests ms).Chain' inOrder ∧
        (sortManifests ms).Pairwise inOrder) ∧
    (∀ m1 m2 m3 : JobInfo, m1.VolumeName = m3.VolumeName →
      m1.VolumeName < m2.VolumeName →
      m3.BaseSnapshot.CreationTime.Before m1.BaseSnapshot.CreationTime = true →
      sortManifests [m1, m2, m3] = [m3, m1, m2]) := by
  refine ⟨fun ms => ?_, sortManifests_three⟩
  have hp : (sortManifests ms).Pairwise inOrder :=
    (sortManifests_sorted ms).imp (fun {a b} h => (sortKey_le_iff_inOrder a b).1 h)
  exact ⟨sortManifests_perm ms, List.Pairwise.chain' hp, hp⟩

theorem sortManifests_perm_inOrder_witness :
    sortManifests [exA2, exB1, exA1] = [exA1, exA2, exB1] ∧
      (sortManifests [exA2, exB1, exA1]).Perm [exA2, exB1, exA1] :=
  ⟨sortManifests_perm_inOrder.2 exA2 exB1 exA1 rfl
      (String.lt_iff_toList_lt.2 (by decide)) (by decide),
    (sortManifests_perm_inOrder.1 [exA2, exB1, exA1]).1⟩

/-- C2: the sort in `List` is stable.  For every list of decoded manifests and every
manifest `m`, the manifests that tie with `m` on volume name and creation instant occur
in the rendered order exactly as they occur in the decoded order; in particular, if `a`
is decoded before `b` and the two tie, `a` is rendered before `b`. -/
theorem sortManifests_stable (ms : List JobInfo) :
    (∀ m : JobInfo,
      (sortManifests ms).filter (fun a => sameKey a m) = ms.filter (fun a => sameKey a m)) ∧
    (∀ a b : JobInfo, sameKey a b = true → [a, b].Sublist ms →
      [a, b].Sublist (sortManifests ms)) := by
  refine ⟨sortManifests_filter_sameKey ms, ?_⟩
  intro a b hab hsub
  have h1 : ([a, b].filter (fun x => sameKey x b)).Sublist
      (ms.filter (fun x => sameKey x b)) := hsub.filter _
  have h2 : [a, b].filter (fun x => sameKey x b) = [a, b] := by
    simp [List.filter, hab, sameKey_refl]
  rw [h2, ← sortManifests_filter_sameKey ms b] at h1
  exact h1.trans (List.filter_sublist _)

theorem sortManifests_stable_witness :
    [exA1incr, exA1].Sublist (sortManifests [exB1, exA1incr, exA2, exA1]) :=
  (sortManifests_stable [exB1, exA1incr, exA2, exA1]).2 exA1incr exA1 (by decide)
    (by decide)

/-- C7, counterexample: two manifests of volume `A` with the same creation instant, one a
full and one an incremental backup.  The two decode orders are permutations of each
other, yet each is rendered in its own decode order, so the rendered sequences differ
for every renderer that tells the two manifests apart. -/
theorem sortManifests_depends_on_decode_order :
    [exA1incr, exA1].Perm [exA1, exA1incr] ∧
      sortManifests [exA1, exA1incr] = [exA1, exA1incr] ∧
      sortManifests [exA1incr, exA1] = [exA1incr, exA1] ∧
      ¬ (∀ (render : JobInfo → String) (l l' : List JobInfo), l'.Perm l →
          (sortManifests l').map render = (sortManifests l).map render) := by
  refine ⟨List.Perm.swap _ _ _, by decide, by decide, ?_⟩
  intro h
  have h1 := h (fun m => m.Opaque) [exA1, exA1incr] [exA1incr, exA1] (List.Perm.swap _ _ _)
  revert h1
  decide

/-- C7, as amended: for every list of decoded manifests and every permutation of it, the
two sorted sequences carry the same (volume name, creation instant) keys position by
position, and they are rendered identically whenever manifests of the list that tie on
both keys have the same rendering (in particular when no two manifests tie). -/
theorem sortManifests_perm_invariant (render : JobInfo → String) (l l' : List JobInfo)
    (hperm : l'.Perm l) :
    (sortManifests l').map sortKey = (sortManifests l).map sortKey ∧
    ((∀ a ∈ l, ∀ b ∈ l, sameKey a b = true → render a = render b) →
      (sortManifests l').map render = (sortManifests l).map render) := by
  refine ⟨sortManifests_keys_eq_of_perm l l' hperm, fun hr => ?_⟩
  refine map_eq_of_map_key_eq sortKey render _ _ (sortManifests_keys_eq_of_perm l l' hperm) ?_
  intro a ha b hb hk
  have ha' : a ∈ l := hperm.mem_iff.1 ((sortManifests_perm l').mem_iff.1 ha)
  have hb' : b ∈ l := (sortManifests_perm l).mem_iff.1 hb
  exact hr a ha' b hb' ((sortKey_eq_iff a b).1 hk)

theorem sortManifests_perm_invariant_witness :
    (sortManifests [exA1, exB1, exA2]).map (fun m => m.VolumeName) =
      (sortManifests [exA2, exB1, exA1]).map (fun m => m.VolumeName) :=
  (sortManifests_perm_invariant (fun m => m.VolumeName) [exA2, exB1, exA1]
    [exA1, exB1, exA2] (by decide)).2 (by decide)

theorem less_eq_false_iff (a b : JobInfo) : less a b = false ↔ sortKey b ≤ sortKey a := by
  rw [← not_lt, ← less_iff_sortKey_lt, Bool.not_eq_true]

theorem incomparable_iff_sameKey (a b : JobInfo) :
    (less a b = false ∧ less b a = false) ↔ sameKey a b = true := by
  rw [less_eq_false_iff, less_eq_false_iff, ← sortKey_eq_iff]
  exact ⟨fun h => le_antisymm h.2 h.1, fun h => ⟨le_of_eq h.symm, le_of_eq h⟩⟩

/-- C10: the `less` function `List` passes to the stable sort is a strict weak ordering.
It is irreflexive, asymmetric and transitive; two manifests are incomparable exactly
when they have equal volume names and equal creation instants, and incomparability is
reflexive, symmetric and transitive; and `less` is the lexicographic order on the pair
(volume name, creation time). -/
theorem less_strict_weak_order :
    (∀ a : JobInfo, less a a = false) ∧
    (∀ a b : JobInfo, less a b = true → less b a = false) ∧
    (∀ a b c : JobInfo, less a b = true → less b c = true → less a c = true) ∧
    (∀ a b : JobInfo, (less a b = false ∧ less b a = false) ↔
      (a.VolumeName = b.VolumeName ∧
        a.BaseSnapshot.CreationTime.Equal b.BaseSnapshot.CreationTime = true)) ∧
    (∀ a : JobInfo, less a a = false ∧ less a a = false) ∧
    (∀ a b : JobInfo, (less a b = false ∧ less b a = false) →
      (less b a = false ∧ less a b = false)) ∧
    (∀ a b c : JobInfo, (less a b = false ∧ less b a = false) →
      (less b c = false ∧ less c b = false) → (less a c = false ∧ less c a = false)) ∧
    (∀ a b : JobInfo, less a b = true ↔
      (a.VolumeName < b.VolumeName ∨
        (a.VolumeName = b.VolumeName ∧
          a.BaseSnapshot.CreationTime.Before b.BaseSnapshot.CreationTime = true))) ∧
    (∀ a b : JobInfo, less a b = true ↔ sortKey a < sortKey b) := by
  have irr : ∀ a : JobInfo, less a a = false :=
    fun a => (less_eq_false_iff a a).2 (le_refl _)
  refine ⟨irr, ?_, ?_, ?_, fun a => ⟨irr a, irr a⟩, fun a b h => ⟨h.2, h.1⟩, ?_,
    less_iff, less_iff_sortKey_lt⟩
  · intro a b h
    exact (less_eq_false_iff b a).2 (le_of_lt ((less_iff_sortKey_lt a b).1 h))
  · intro a b c h1 h2
    exact (less_iff_sortKey_lt a c).2
      (lt_trans ((less_iff_sortKey_lt a b).1 h1) ((less_iff_sortKey_lt b c).1 h2))
  · intro a b
    rw [incomparable_iff_sameKey, sameKey_iff]
  · intro a b c h1 h2
    have e1 := (sortKey_eq_iff a b).2 ((incomparable_iff_sameKey a b).1 h1)
    have e2 := (sortKey_eq_iff b c).2 ((incomparable_iff_sameKey b c).1 h2)
    exact (incomparable_iff_sameKey a c).2 ((sortKey_eq_iff a c).1 (e1.trans e2))

theorem less_strict_weak_order_witness :
    less exA1 exB1 = true ∧ less exA1zone exA1 = false ∧ less exA1 exA1zone = false :=
  ⟨less_strict_weak_order.2.2.1 exA1 exA2 exB1 (by decide) (by decide),
    (less_strict_weak_order.2.2.2.1 exA1zone exA1).2 ⟨by decide, by decide⟩⟩

/-! ## Traces of the decode loops -/

theorem noticeFormatsOf_append (a b : List Event) : noticeFormatsOf (a ++ b) = noticeFormatsOf a ++ noticeFormatsOf b := by
  simp [noticeFormatsOf, List.filterMap_append]

theorem infoFormatsOf_append (a b : List Event) : infoFormatsOf (a ++ b) = infoFormatsOf a ++ infoFormatsOf b := by
  simp [infoFormatsOf, List.filterMap_append]

theorem readManifest_events (env : Env) (p : String) (j : JobInfo) :
    ∀ e ∈ (readManifest env p j).1, e = .extractLocal p ∨ e = .manifestVolClose p := by
  intro e he
  unfold readManifest at he
  split at he
  · simp at he
    exact Or.inl he
  · split at he <;> simpa using he

theorem noticeFormatsOf_eq_nil (evs : List Event) (h : ∀ e ∈ evs, ∀ msg, e ≠ .noticef msg) :
    noticeFormatsOf evs = [] := by
  unfold noticeFormatsOf
  rw [List.filterMap_eq_nil_iff]
  intro e he
  cases e <;> first | rfl | exact absurd rfl (h _ he _)

theorem infoFormatsOf_eq_nil (evs : List Event) (h : ∀ e ∈ evs, ∀ msg, e ≠ .infof msg) :
    infoFormatsOf evs = [] := by
  unfold infoFormatsOf
  rw [List.filterMap_eq_nil_iff]
  intro e he
  cases e <;> first | rfl | exact absurd rfl (h _ he _)

theorem readManifest_notices (env : Env) (p : String) (j : JobInfo) :
    noticeFormatsOf (readManifest env p j).1 = [] := by
  apply noticeFormatsOf_eq_nil
  intro e he msg
  rcases readManifest_events env p j e he with h | h <;> rw [h] <;> simp

theorem readManifest_infos (env : Env) (p : String) (j : JobInfo) :
    infoFormatsOf (readManifest env p j).1 = [] := by
  apply infoFormatsOf_eq_nil
  intro e he msg
  rcases readManifest_events env p j e he with h | h <;> rw [h] <;> simp

theorem decodeManifests_cons_error (env : Env) (j : JobInfo) (path f : String)
    (rest : List String) (e : Error) (h : decodes env j path f = .error e) :
    decodeManifests env j path (f :: rest) =
      ((readManifest env (env.Join path f) j).1 ++
        [.errorf ("Could not read manifest " ++ env.Join path f ++
          " due to error - " ++ e)], .error e) := by
  unfold decodes at h
  rcases hrm : readManifest env (env.Join path f) j with ⟨evs, r⟩
  rw [hrm] at h
  simp only at h
  subst h
  simp [decodeManifests, hrm]

theorem decodeManifests_cons_ok (env : Env) (j : JobInfo) (path f : String)
    (rest : List String) (m : JobInfo) (h : decodes env j path f = .ok m) :
    (decodeManifests env j path (f :: rest)).1 =
        (readManifest env (env.Join path f) j).1 ++ (decodeManifests env j path rest).1 ∧
      (decodeManifests env j path (f :: rest)).2 =
        (match (decodeManifests env j path rest).2 with
          | .error oerr => .error oerr
          | .ok ms => .ok (m :: ms)) := by
  unfold decodes at h
  rcases hrm : readManifest env (env.Join path f) j with ⟨evs, r⟩
  rw [hrm] at h
  simp only at h
  subst h
  rcases hrest : decodeManifests env j path rest with ⟨evs2, r2⟩
  cases r2 <;> simp [decodeManifests, hrm, hrest]

theorem decodeManifests_notices (env : Env) (j : JobInfo) (path : String) :
    ∀ safe : List String, noticeFormatsOf (decodeManifests env j path safe).1 = [] ∧
      infoFormatsOf (decodeManifests env j path safe).1 = []
  | [] => by simp [decodeManifests, noticeFormatsOf, infoFormatsOf]
  | f :: rest => by
    have ih := decodeManifests_notices env j path rest
    cases hd : decodes env j path f with
    | error e =>
      rw [decodeManifests_cons_error env j path f rest e hd]
      simp only [noticeFormatsOf_append, infoFormatsOf_append, readManifest_notices, readManifest_infos]
      simp [noticeFormatsOf, infoFormatsOf]
    | ok m =>
      rw [(decodeManifests_cons_ok env j path f rest m hd).1]
      simp only [noticeFormatsOf_append, infoFormatsOf_append, readManifest_notices, readManifest_infos,
        ih.1, ih.2]
      simp

theorem decodeManifests_ok (env : Env) (j : JobInfo) (path : String) :
    ∀ safe : List String, (∀ g ∈ safe, ∃ m, decodes env j path g = .ok m) →
      (decodeManifests env j path safe).2 = .ok (decodable env j path safe)
  | [], _ => by simp [decodeManifests, decodable]
  | f :: rest, h => by
    obtain ⟨m, hm⟩ := h f (List.mem_cons_self _ _)
    have ih := decodeManifests_ok env j path rest
      (fun g hg => h g (List.mem_cons_of_mem _ hg))
    rw [(decodeManifests_cons_ok env j path f rest m hm).2, ih]
    simp [decodable, hm]

theorem decodeManifests_error (env : Env) (j : JobInfo) (path : String) :
    ∀ (pre : List String) (f : String) (post : List String) (e : Error),
      (∀ g ∈ pre, ∃ m, decodes env j path g = .ok m) →
      decodes env j path f = .error e →
      (decodeManifests env j path (pre ++ f :: post)).2 = .error e
  | [], f, post, e, _, hf => by
    rw [List.nil_append, decodeManifests_cons_error env j path f post e hf]
  | g :: pre, f, post, e, hpre, hf => by
    obtain ⟨m, hm⟩ := hpre g (List.mem_cons_self _ _)
    have ih := decodeManifests_error env j path pre f post e
      (fun x hx => hpre x (List.mem_cons_of_mem _ hx)) hf
    rw [List.cons_append, (decodeManifests_cons_ok env j path g _ m hm).2, ih]

theorem first_failure (env : Env) (j : JobInfo) (path : String) :
    ∀ safe : List String, (∃ f ∈ safe, ∃ e, decodes env j path f = .error e) →
      ∃ pre f post e, safe = pre ++ f :: post ∧
        (∀ g ∈ pre, ∃ m, decodes env j path g = .ok m) ∧
        decodes env j path f = .error e
  | [], h => by
    obtain ⟨f, hf, _⟩ := h
    simp at hf
  | g :: rest, h => by
    cases hg : decodes env j path g with
    | error e => exact ⟨[], g, rest, e, rfl, by simp, hg⟩
    | ok m =>
      have h' : ∃ f ∈ rest, ∃ e, decodes env j path f = .error e := by
        obtain ⟨f, hf, e, he⟩ := h
        rcases List.mem_cons.1 hf with h1 | h1
        · rw [h1, hg] at he
          cases he
        · exact ⟨f, h1, e, he⟩
      obtain ⟨pre, f, post, e, h1, h2, h3⟩ := first_failure env j path rest h'
      refine ⟨g :: pre, f, post, e, by rw [h1]; rfl, ?_, h3⟩
      intro x hx
      rcases List.mem_cons.1 hx with hx | hx
      · exact ⟨m, hx ▸ hg⟩
      · exact h2 x hx

theorem decodable_length (env : Env) (j : JobInfo) (path : String) :
    ∀ safe : List String, (∀ g ∈ safe, ∃ m, decodes env j path g = .ok m) →
      (decodable env j path safe).length = safe.length
  | [], _ => by simp [decodable]
  | f :: rest, h => by
    obtain ⟨m, hm⟩ := h f (List.mem_cons_self _ _)
    have ih := decodable_length env j path rest
      (fun g hg => h g (List.mem_cons_of_mem _ hg))
    simp only [decodable] at ih ⊢
    simp [hm, ih]

theorem readLocalOnly_spec (env : Env) (j : JobInfo) (path : String) :
    ∀ files : List String,
      (readLocalOnly env j path files).2 =
          (decodable env j path files).map env.manifestString ∧
        noticeFormatsOf (readLocalOnly env j path files).1 = [] ∧
        infoFormatsOf (readLocalOnly env j path files).1 = []
  | [] => by simp [readLocalOnly, decodable, noticeFormatsOf, infoFormatsOf]
  | f :: rest => by
    have ih := readLocalOnly_spec env j path rest
    have hn := readManifest_notices env (env.Join path f) j
    have hi := readManifest_infos env (env.Join path f) j
    unfold decodable at ih ⊢
    unfold decodes
    rcases hrm : readManifest env (env.Join path f) j with ⟨evs, r⟩
    rw [hrm] at hn hi
    simp only at hn hi
    cases r with
    | error e =>
      simp only [readLocalOnly, hrm, noticeFormatsOf_append, infoFormatsOf_append, hn, hi, ih.2.1,
        ih.2.2, List.filterMap_cons]
      refine ⟨ih.1, ?_, ?_⟩ <;> simp [noticeFormatsOf, infoFormatsOf]
    | ok m =>
      simp only [readLocalOnly, hrm, noticeFormatsOf_append, infoFormatsOf_append, hn, hi, ih.2.1,
        ih.2.2, List.filterMap_cons, List.map_cons]
      refine ⟨congrArg _ ih.1, ?_, ?_⟩ <;> simp

/-! ## The report and the run -/

theorem listReport_error (env : Env) (j : JobInfo) (path : String)
    (safe localOnly : List String) (e : Error)
    (h : (decodeManifests env j path safe).2 = .error e) :
    (listReport env j path safe localOnly).2 = some e ∧
      noticeFormatsOf (listReport env j path safe localOnly).1 = [] ∧
      infoFormatsOf (listReport env j path safe localOnly).1 = [] := by
  have hn := decodeManifests_notices env j path safe
  rcases hdm : decodeManifests env j path safe with ⟨evs, r⟩
  rw [hdm] at h hn
  simp only at h hn
  subst h
  simp [listReport, hdm, hn.1, hn.2]

theorem listReport_ok (env : Env) (j : JobInfo) (path : String)
    (safe localOnly : List String)
    (h : ∀ g ∈ safe, ∃ m, decodes env j path g = .ok m) :
    (listReport env j path safe localOnly).2 = none ∧
      noticeFormatsOf (listReport env j path safe localOnly).1 =
        [String.intercalate "\n"
          ([foundHeader safe.length] ++
            (sortManifests (decodable env j path safe)).map env.manifestString ++
            (if localOnly = [] then [] else [localOnlyCountLine localOnly.length]))] ∧
      infoFormatsOf (listReport env j path safe localOnly).1 =
        (if localOnly = [] then []
         else [String.intercalate "\n"
          (localOnlyHeading :: (decodable env j path localOnly).map env.manifestString)]) := by
  have hn := decodeManifests_notices env j path safe
  have hok := decodeManifests_ok env j path safe h
  have hlen := decodable_length env j path safe h
  have hlo := readLocalOnly_spec env j path localOnly
  rcases hdm : decodeManifests env j path safe with ⟨evs, r⟩
  rw [hdm] at hok hn
  simp only at hok hn
  subst hok
  unfold listReport
  rw [hdm]
  simp only [hlen]
  by_cases hl : localOnly = []
  · subst hl
    simp [noticeFormatsOf_append, infoFormatsOf_append, hn.1, hn.2]
    simp [noticeFormatsOf, infoFormatsOf]
  · have hpos : localOnly.length > 0 := List.length_pos.2 hl
    simp only [hpos, if_true, if_neg hl, noticeFormatsOf_append, infoFormatsOf_append, hn.1, hn.2,
      hlo.1, hlo.2.1, hlo.2.2]
    simp [noticeFormatsOf, infoFormatsOf]

theorem List_after_sync (env : Env) (j : JobInfo) (target : String) (rest : List String)
    (backend : Backend) (path : String) (safe localOnly : List String)
    (hd : j.Destinations = target :: rest)
    (hb : env.prepareBackend j target = .ok backend)
    (hc : env.getCacheDir target = .ok path)
    (hs : env.syncCache j path backend = .ok (safe, localOnly)) :
    (backup.List env j).events =
        [.prepareBackend target, .getCacheDir target, .syncCache path] ++
          (listReport env j path safe localOnly).1 ++ [.backendClose backend, .cancel] ∧
      (backup.List env j).outcome = .returned (listReport env j path safe localOnly).2 := by
  unfold backup.List
  rw [hd]
  simp only [hb, hc, hs]
  exact ⟨trivial, trivial⟩

theorem List_formats_after_sync (env : Env) (j : JobInfo) (target : String)
    (rest : List String) (backend : Backend) (path : String) (safe localOnly : List String)
    (hd : j.Destinations = target :: rest)
    (hb : env.prepareBackend j target = .ok backend)
    (hc : env.getCacheDir target = .ok path)
    (hs : env.syncCache j path backend = .ok (safe, localOnly)) :
    (backup.List env j).noticeFormats = noticeFormatsOf (listReport env j path safe localOnly).1 ∧
      (backup.List env j).infoFormats = infoFormatsOf (listReport env j path safe localOnly).1 := by
  unfold Run.noticeFormats Run.infoFormats
  rw [(List_after_sync env j target rest backend path safe localOnly hd hb hc hs).1]
  simp only [noticeFormatsOf_append, infoFormatsOf_append]
  simp [noticeFormatsOf, infoFormatsOf]

theorem intercalate_go_eq (sep : String) :
    ∀ (rest : List String) (acc : String),
      String.intercalate.go acc sep rest = acc ++ String.intercalate.go "" sep rest
  | [], acc => by simp [String.intercalate.go]
  | a :: rest, acc => by
    rw [String.intercalate.go, String.intercalate.go, intercalate_go_eq sep rest (acc ++ sep ++ a),
      intercalate_go_eq sep rest ("" ++ sep ++ a)]
    simp [String.append_assoc]

theorem intercalate_cons (sep first : String) (rest : List String) :
    String.intercalate sep (first :: rest) = first ++ String.intercalate.go "" sep rest := by
  rw [String.intercalate, intercalate_go_eq]

theorem decodable_forall₂ (env : Env) (j : JobInfo) (path : String) :
    ∀ safe : List String, (∀ g ∈ safe, ∃ m, decodes env j path g = .ok m) →
      List.Forall₂ (fun f m => decodes env j path f = .ok m) safe (decodable env j path safe)
  | [], _ => by simp [decodable]
  | f :: rest, h => by
    obtain ⟨m, hm⟩ := h f (List.mem_cons_self _ _)
    have ih := decodable_forall₂ env j path rest
      (fun g hg => h g (List.mem_cons_of_mem _ hg))
    simp only [decodable] at ih ⊢
    simp only [List.filterMap_cons, hm]
    exact List.Forall₂.cons hm ih

theorem List_of_syncedTo (env : Env) (j : JobInfo) (path : String)
    (safe localOnly : List String) (h : syncedTo env j path safe localOnly) :
    (backup.List env j).outcome = .returned (listReport env j path safe localOnly).2 ∧
      (backup.List env j).noticeFormats =
        noticeFormatsOf (listReport env j path safe localOnly).1 ∧
      (backup.List env j).infoFormats =
        infoFormatsOf (listReport env j path safe localOnly).1 := by
  obtain ⟨target, rest, backend, hd, hb, hc, hs⟩ := h
  exact ⟨(List_after_sync env j target rest backend path safe localOnly hd hb hc hs).2,
    List_formats_after_sync env j target rest backend path safe localOnly hd hb hc hs⟩

/-! ## `Sprintf` without operands -/

theorem parsenum_length (num : Nat) (isnum : Bool) (s : List Char) :
    (parsenum num isnum s).2.length ≤ s.length := by
  induction s generalizing num isnum with
  | nil => simp [parsenum]
  | cons c cs ih =>
    unfold parsenum
    split
    · split
      · simp
      · exact Nat.le_succ_of_le (ih _ _)
    · exact Nat.le_refl _

theorem argNumber_length (s : List Char) : (argNumber s).1.length ≤ s.length := by
  have hdrop : ∀ after : List Char,
      ((after.dropWhile (fun c => c != ']')).drop 1).length ≤ (after.length + 1) := by
    intro after
    rw [List.length_drop]
    exact Nat.le_trans (Nat.sub_le _ _)
      (Nat.le_succ_of_le (List.Sublist.length_le (List.dropWhile_sublist _)))
  unfold argNumber
  split
  · rename_i after
    split
    · simp
    · split
      · split
        · exact hdrop after
        · exact hdrop after
      · simp
  · exact Nat.le_refl _

theorem parseIndex_length (st : VerbState) : (parseIndex st).rest.length ≤ st.rest.length :=
  argNumber_length st.rest

theorem parseWidth_length (st : VerbState) : (parseWidth st).rest.length ≤ st.rest.length := by
  unfold parseWidth
  split
  · rename_i t h
    rw [h]
    simp
  · exact parsenum_length _ _ _

theorem parsePrecision_length (st : VerbState) :
    (parsePrecision st).rest.length ≤ st.rest.length := by
  unfold parsePrecision
  split
  · rename_i t h
    rw [h]
    have h1 := argNumber_length t
    have h2 := parsenum_length 0 false (argNumber t).1
    simp only
    split
    · rename_i t' h'
      rw [h'] at h1
      simp only [List.length_cons] at h1 ⊢
      omega
    · simp only [List.length_cons]
      omega
  · exact Nat.le_refl _

theorem parseVerb_length (s : List Char) : (parseVerb s).rest.length ≤ s.length := by
  have h0 : (s.dropWhile isFlag).length ≤ s.length :=
    List.Sublist.length_le (List.dropWhile_sublist _)
  have h1 := parseIndex_length ⟨[], s.dropWhile isFlag, false, true⟩
  have h2 := parseWidth_length (parseIndex ⟨[], s.dropWhile isFlag, false, true⟩)
  have h3 := parsePrecision_length
    (parseWidth (parseIndex ⟨[], s.dropWhile isFlag, false, true⟩))
  have h4 := parseIndex_length (parsePrecision
    (parseWidth (parseIndex ⟨[], s.dropWhile isFlag, false, true⟩)))
  simp only at h1
  unfold parseVerb
  simp only
  split <;> omega

theorem printVerb_length (st : VerbState) : (printVerb st).2.length ≤ st.rest.length := by
  unfold printVerb
  split
  · simp
  · rename_i verb rest h
    rw [h]
    split
    · simp
    · split <;> simp

theorem doVerb_length (s : List Char) : (doVerb s).2.length ≤ s.length :=
  Nat.le_trans (printVerb_length _) (parseVerb_length s)

/-- The step bound of `doPrintf` does not matter once it is at least the length of the
format: the length of the format is enough to read the whole format. -/
theorem doPrintf_fuel : ∀ (n m : Nat) (s : List Char), s.length ≤ n → s.length ≤ m →
    doPrintf n s = doPrintf m s
  | 0, m, s, hn, _ => by
    have hs : s = [] := List.length_eq_zero.1 (Nat.le_zero.1 hn)
    subst hs
    cases m <;> rfl
  | n + 1, 0, s, _, hm => by
    have hs : s = [] := List.length_eq_zero.1 (Nat.le_zero.1 hm)
    subst hs
    rfl
  | n + 1, m + 1, [], _, _ => rfl
  | n + 1, m + 1, c :: cs, hn, hm => by
    simp only [List.length_cons, Nat.add_le_add_iff_right] at hn hm
    have hv := doVerb_length cs
    simp only [doPrintf]
    rw [doPrintf_fuel n m cs hn hm,
      doPrintf_fuel n m (doVerb cs).2 (Nat.le_trans hv hn) (Nat.le_trans hv hm)]

theorem doPrintf_of_no_percent : ∀ (n : Nat) (s : List Char), s.length ≤ n → '%' ∉ s →
    doPrintf n s = s
  | 0, s, hn, _ => by
    have hs : s = [] := List.length_eq_zero.1 (Nat.le_zero.1 hn)
    subst hs
    rfl
  | n + 1, [], _, _ => rfl
  | n + 1, c :: cs, hn, hs => by
    simp only [List.length_cons, Nat.add_le_add_iff_right] at hn
    have hc : ¬ c = '%' := fun h => hs (h ▸ List.mem_cons_self _ _)
    simp only [doPrintf, if_neg hc]
    rw [doPrintf_of_no_percent n cs hn (fun h => hs (List.mem_cons_of_mem _ h))]

/-- A format without `%` is emitted unchanged. -/
theorem Sprintf_of_no_percent (format : String) (h : '%' ∉ format.toList) :
    Sprintf format = format := by
  unfold Sprintf
  rw [doPrintf_of_no_percent format.length format.toList (Nat.le_refl _) h]
  cases format
  rfl

theorem digitChar_ne_percent : ∀ k, k < 10 → Nat.digitChar k ≠ '%' := by
  decide

theorem toDigitsCore_no_percent : ∀ (fuel n : Nat) (ds : List Char), '%' ∉ ds →
    '%' ∉ Nat.toDigitsCore 10 fuel n ds
  | 0, _, ds, h => by simpa [Nat.toDigitsCore] using h
  | fuel + 1, n, ds, h => by
    have hd : '%' ∉ Nat.digitChar (n % 10) :: ds := by
      intro hm
      rcases List.mem_cons.1 hm with e | e
      · exact digitChar_ne_percent _ (Nat.mod_lt n (by decide)) e.symm
      · exact h e
    unfold Nat.toDigitsCore
    simp only
    split
    · exact hd
    · exact toDigitsCore_no_percent fuel _ _ hd

theorem toString_nat_no_percent (n : Nat) : '%' ∉ (toString n).toList := by
  show '%' ∉ (Nat.repr n).toList
  unfold Nat.repr Nat.toDigits
  exact toDigitsCore_no_percent _ _ _ (List.not_mem_nil _)

theorem append_no_percent (a b : String) (ha : '%' ∉ a.toList) (hb : '%' ∉ b.toList) :
    '%' ∉ (a ++ b).toList := by
  rw [String.toList, String.data_append]
  intro h
  rcases List.mem_append.1 h with h | h
  · exact ha h
  · exact hb h

theorem intercalate_go_no_percent (sep : String) (hsep : '%' ∉ sep.toList) :
    ∀ (rest : List String) (acc : String), '%' ∉ acc.toList →
      (∀ l ∈ rest, '%' ∉ l.toList) → '%' ∉ (String.intercalate.go acc sep rest).toList
  | [], acc, hacc, _ => by simpa [String.intercalate.go] using hacc
  | a :: rest, acc, hacc, h => by
    rw [String.intercalate.go]
    exact intercalate_go_no_percent sep hsep rest _
      (append_no_percent _ _ (append_no_percent _ _ hacc hsep) (h a (List.mem_cons_self _ _)))
      (fun l hl => h l (List.mem_cons_of_mem _ hl))

theorem intercalate_no_percent (sep : String) (hsep : '%' ∉ sep.toList) (lines : List String)
    (h : ∀ l ∈ lines, '%' ∉ l.toList) : '%' ∉ (String.intercalate sep lines).toList := by
  cases lines with
  | nil => simp [String.intercalate]
  | cons a rest =>
    rw [String.intercalate]
    exact intercalate_go_no_percent sep hsep rest a (h a (List.mem_cons_self _ _))
      (fun l hl => h l (List.mem_cons_of_mem _ hl))

theorem foundHeader_no_percent (n : Nat) : '%' ∉ (foundHeader n).toList :=
  append_no_percent _ _ (append_no_percent _ _ (by decide) (toString_nat_no_percent n))
    (by decide)

theorem localOnlyCountLine_no_percent (n : Nat) : '%' ∉ (localOnlyCountLine n).toList :=
  append_no_percent _ _ (append_no_percent _ _ (by decide) (toString_nat_no_percent n))
    (by decide)

/-! ## A successful run -/

/-- When setup, sync and every verified decode succeed, `List` returns `nil` and hands
the logger exactly two kinds of format: to `Noticef` the header, the renderings of the
decoded verified manifests in sorted order and, when there are local-only files, their
count line; to `Infof`, when there are local-only files, the heading and the renderings
of the local-only manifests that decode. -/
theorem List_success_formats (env : Env) (j : JobInfo) (path : String)
    (safe localOnly : List String) (h : syncedTo env j path safe localOnly)
    (hall : ∀ g ∈ safe, ∃ m, decodes env j path g = .ok m) :
    (backup.List env j).outcome = .returned none ∧
      (backup.List env j).noticeFormats =
        [String.intercalate "\n"
          ([foundHeader safe.length] ++
            (sortManifests (decodable env j path safe)).map env.manifestString ++
            (if localOnly = [] then [] else [localOnlyCountLine localOnly.length]))] ∧
      (backup.List env j).infoFormats =
        (if localOnly = [] then []
         else [String.intercalate "\n"
          (localOnlyHeading :: (decodable env j path localOnly).map env.manifestString)]) := by
  have hr := listReport_ok env j path safe localOnly hall
  have hl := List_of_syncedTo env j path safe localOnly h
  exact ⟨by rw [hl.1, hr.1], hl.2.1.trans hr.2.1, hl.2.2.trans hr.2.2⟩

/-- The text handed to `Noticef` on success begins with the header "Found N backup
sets", `N` being the number of verified file names, which is also the number of decoded
manifests; the manifests rendered after it are the decoded manifests, each once, in
sorted order. -/
theorem List_inventory_lines (env : Env) (j : JobInfo) (path : String)
    (safe localOnly : List String) (h : syncedTo env j path safe localOnly)
    (hall : ∀ g ∈ safe, ∃ m, decodes env j path g = .ok m) :
    (∃ rest, (backup.List env j).noticeFormats =
        ["Found " ++ toString safe.length ++ " backup sets:\n" ++ rest]) ∧
      List.Forall₂ (fun f m => decodes env j path f = .ok m) safe (decodable env j path safe) ∧
      (decodable env j path safe).length = safe.length ∧
      (sortManifests (decodable env j path safe)).Perm (decodable env j path safe) ∧
      (sortManifests (decodable env j path safe)).Pairwise inOrder := by
  have hf := List_success_formats env j path safe localOnly h hall
  refine ⟨⟨String.intercalate.go "" "\n"
      ((sortManifests (decodable env j path safe)).map env.manifestString ++
        (if localOnly = [] then [] else [localOnlyCountLine localOnly.length])), ?_⟩,
    decodable_forall₂ env j path safe hall, decodable_length env j path safe hall,
    sortManifests_perm _,
    (sortManifests_sorted _).imp (fun {a b} hab => (sortKey_le_iff_inOrder a b).1 hab)⟩
  rw [hf.2.1, List.append_assoc, List.singleton_append, intercalate_cons]
  rfl

/-- When, in addition, no rendering contains a `%`, the messages emitted are these
formats unchanged. -/
theorem List_success_messages (env : Env) (j : JobInfo) (path : String)
    (safe localOnly : List String) (h : syncedTo env j path safe localOnly)
    (hall : ∀ g ∈ safe, ∃ m, decodes env j path g = .ok m)
    (hsafe : ∀ m ∈ decodable env j path safe, '%' ∉ (env.manifestString m).toList)
    (hlocal : ∀ m ∈ decodable env j path localOnly, '%' ∉ (env.manifestString m).toList) :
    (backup.List env j).notices =
        [String.intercalate "\n"
          ([foundHeader safe.length] ++
            (sortManifests (decodable env j path safe)).map env.manifestString ++
            (if localOnly = [] then [] else [localOnlyCountLine localOnly.length]))] ∧
      (backup.List env j).infos =
        (if localOnly = [] then []
         else [String.intercalate "\n"
          (localOnlyHeading :: (decodable env j path localOnly).map env.manifestString)]) := by
  have hf := List_success_formats env j path safe localOnly h hall
  unfold Run.notices Run.infos
  rw [hf.2.1, hf.2.2]
  constructor
  · rw [List.map_singleton, Sprintf_of_no_percent]
    apply intercalate_no_percent _ (by decide)
    intro l hl
    rcases List.mem_append.1 hl with hl | hl
    · rcases List.mem_append.1 hl with hl | hl
      · rw [List.mem_singleton.1 hl]
        exact foundHeader_no_percent _
      · obtain ⟨m, hm, rfl⟩ := List.mem_map.1 hl
        exact hsafe m ((sortManifests_perm _).mem_iff.1 hm)
    · by_cases hlo : localOnly = []
      · simp [hlo] at hl
      · rw [if_neg hlo, List.mem_singleton] at hl
        rw [hl]
        exact localOnlyCountLine_no_percent _
  · by_cases hlo : localOnly = []
    · simp [hlo]
    · rw [if_neg hlo, List.map_singleton, Sprintf_of_no_percent]
      apply intercalate_no_percent _ (by decide)
      intro l hl
      rcases List.mem_cons.1 hl with hl | hl
      · rw [hl]
        decide
      · obtain ⟨m, hm, rfl⟩ := List.mem_map.1 hl
        exact hlocal m hm

/-! ## Decode failures -/

/-- C3: if `readManifest` fails for any of the verified file names returned by the sync,
`List` returns the error of the first failing file name in sync order (every file name
before it decodes) and hands nothing to `Noticef` or `Infof`: neither the "Found N
backup sets" notice nor the local-only warning is produced, whatever the other
manifests decode to. -/
theorem List_verified_decode_failure (env : Env) (j : JobInfo) (path : String)
    (safe localOnly : List String) (h : syncedTo env j path safe localOnly)
    (hfail : ∃ f ∈ safe, ∃ e, decodes env j path f = .error e) :
    ∃ pre f post e, safe = pre ++ f :: post ∧
      (∀ g ∈ pre, ∃ m, decodes env j path g = .ok m) ∧
      decodes env j path f = .error e ∧
      (backup.List env j).outcome = .returned (some e) ∧
      (backup.List env j).notices = [] ∧ (backup.List env j).infos = [] := by
  obtain ⟨pre, f, post, e, hsplit, hpre, hf⟩ := first_failure env j path safe hfail
  have herr : (decodeManifests env j path safe).2 = .error e := by
    rw [hsplit]
    exact decodeManifests_error env j path pre f post e hpre hf
  have hr := listReport_error env j path safe localOnly e herr
  have hl := List_of_syncedTo env j path safe localOnly h
  refine ⟨pre, f, post, e, hsplit, hpre, hf, ?_, ?_, ?_⟩
  · rw [hl.1, hr.1]
  · unfold Run.notices
    rw [hl.2.1, hr.2.1]
    rfl
  · unfold Run.infos
    rw [hl.2.2, hr.2.2]
    rfl

theorem List_verified_decode_failure_witness :
    (backup.List (exSynced ["m1", "corrupt", "garbled", "m2"] ["stale.json"]) exJob).outcome
        = .returned (some "unexpected EOF") ∧
    ∃ pre f post e, ["m1", "corrupt", "garbled", "m2"] = pre ++ f :: post ∧
      (∀ g ∈ pre, ∃ m,
        decodes (exSynced ["m1", "corrupt", "garbled", "m2"] ["stale.json"]) exJob "/cache" g
          = .ok m) ∧
      decodes (exSynced ["m1", "corrupt", "garbled", "m2"] ["stale.json"]) exJob "/cache" f
        = .error e ∧
      (backup.List (exSynced ["m1", "corrupt", "garbled", "m2"] ["stale.json"]) exJob).outcome
        = .returned (some e) ∧
      (backup.List (exSynced ["m1", "corrupt", "garbled", "m2"] ["stale.json"]) exJob).notices
        = [] ∧
      (backup.List (exSynced ["m1", "corrupt", "garbled", "m2"] ["stale.json"]) exJob).infos
        = [] :=
  ⟨by decide,
    List_verified_decode_failure (exSynced ["m1", "corrupt", "garbled", "m2"] ["stale.json"])
      exJob "/cache" ["m1", "corrupt", "garbled", "m2"] ["stale.json"]
      ⟨_, _, _, rfl, rfl, rfl, rfl⟩ ⟨"corrupt", by decide, "unexpected EOF", rfl⟩⟩

/-! ## The inventory and the local-only warning -/

/-- C4, at a failing input: the verified manifest `m1` decodes, the local-only file
`corrupt` does not, and the local-only file `pct` decodes to a manifest whose rendering
contains `%`.  `List` returns `nil` and still emits the inventory, and the text it
hands to `Infof` is the heading followed by the rendering of `pct`; but that text is
handed over as the format, so the warning emitted shows `%!d(MISSING)` in place of the
`%d` of the rendering and does not list the description of `pct`. -/
theorem List_orphan_warning_format_slip :
    (backup.List (exSynced ["m1"] ["corrupt", "pct"]) exJob).outcome = .returned none ∧
      (backup.List (exSynced ["m1"] ["corrupt", "pct"]) exJob).notices =
        ["Found 1 backup sets:\n\nVolume: vol-a (m1)\nThere are 2 manifests found locally that are not on the target destination."] ∧
      (backup.List (exSynced ["m1"] ["corrupt", "pct"]) exJob).infoFormats =
        [String.intercalate "\n"
          [localOnlyHeading, (exSynced ["m1"] ["corrupt", "pct"]).manifestString exPct]] ∧
      (backup.List (exSynced ["m1"] ["corrupt", "pct"]) exJob).infos =
        ["The following manifests were found locally and can be removed using the clean command.\nVolume: tank/50%!d(MISSING)ata (pct)"] ∧
      (backup.List (exSynced ["m1"] ["corrupt", "pct"]) exJob).infos ≠
        [String.intercalate "\n"
          [localOnlyHeading, (exSynced ["m1"] ["corrupt", "pct"]).manifestString exPct]] := by
  decide

/-- C5, at a failing input: the two scenarios of the claim give "Found 2 backup sets"
with `m1` before `m2`, and "Found 0 backup sets".  For the one verified manifest `pct`,
whose rendering contains `%`, the text `List` hands to `Noticef` is the header followed
by the rendering; but that text is handed over as the format, so the inventory emitted
shows `%!d(MISSING)` in place of the `%d` of the rendering. -/
theorem List_inventory_format_slip :
    (backup.List (exSynced ["m2", "m1"] []) exJob).notices =
        ["Found 2 backup sets:\n\nVolume: vol-a (m1)\nVolume: vol-a (m2)"] ∧
      (backup.List (exSynced [] []) exJob).notices = ["Found 0 backup sets:\n"] ∧
      (backup.List (exSynced ["pct"] []) exJob).noticeFormats =
        [String.intercalate "\n"
          [foundHeader 1, (exSynced ["pct"] []).manifestString exPct]] ∧
      (backup.List (exSynced ["pct"] []) exJob).notices =
        ["Found 1 backup sets:\n\nVolume: tank/50%!d(MISSING)ata (pct)"] ∧
      (backup.List (exSynced ["pct"] []) exJob).notices ≠
        [String.intercalate "\n"
          [foundHeader 1, (exSynced ["pct"] []).manifestString exPct]] := by
  decide

/-- C6, counterexample: with no verified manifest and the one local-only file
`stale.json`, the warning text is the heading and the description of `stale.json`, with
no count in it; the count line is the last line of the primary inventory, which
therefore differs from the inventory of the same run without local-only files.  The
warning text is the same for one and for two undecodable local-only files. -/
theorem orphan_count_is_in_the_inventory :
    (backup.List (exSynced [] ["stale.json"]) exJob).infos =
        ["The following manifests were found locally and can be removed using the clean command.\nVolume: vol-old (stale)"] ∧
      (backup.List (exSynced [] ["stale.json"]) exJob).notices =
        ["Found 0 backup sets:\n\nThere are 1 manifests found locally that are not on the target destination."] ∧
      (backup.List (exSynced [] []) exJob).notices = ["Found 0 backup sets:\n"] ∧
      (backup.List (exSynced [] ["stale.json"]) exJob).notices ≠
        (backup.List (exSynced [] []) exJob).notices ∧
      (backup.List (exSynced [] ["corrupt"]) exJob).infos =
        (backup.List (exSynced [] ["corrupt", "garbled"]) exJob).infos := by
  decide

/-- C6, as amended: when setup, sync and every verified decode succeed, the local-only
warning is a text of its own, handed to `Infof`, produced if and only if the local-only
list returned by the sync is non-empty; the text handed over is the heading and the
renderings of the local-only manifests that decode.  The total count of local-only
files, equal to the number of local-only file names even when some or all of them fail
to decode, is carried by the primary inventory: the text handed to `Noticef` is the
inventory lines, which do not depend on the local-only list, followed by the count line
exactly when the list is non-empty.  When no rendering contains `%`, the texts emitted
are the texts handed over. -/
theorem List_orphan_warning (env : Env) (j : JobInfo) (path : String)
    (safe localOnly : List String) (h : syncedTo env j path safe localOnly)
    (hall : ∀ g ∈ safe, ∃ m, decodes env j path g = .ok m) :
    ((backup.List env j).infos ≠ [] ↔ localOnly ≠ []) ∧
      (localOnly ≠ [] →
        (backup.List env j).infoFormats =
            [String.intercalate "\n"
              (localOnlyHeading :: (decodable env j path localOnly).map env.manifestString)] ∧
          (backup.List env j).noticeFormats =
            [String.intercalate "\n"
              ([foundHeader safe.length] ++
                (sortManifests (decodable env j path safe)).map env.manifestString ++
                ["There are " ++ toString localOnly.length ++
                  " manifests found locally that are not on the target destination."])]) ∧
      (localOnly = [] →
        (backup.List env j).infoFormats = [] ∧
        (backup.List env j).noticeFormats =
          [String.intercalate "\n"
            ([foundHeader safe.length] ++
              (sortManifests (decodable env j path safe)).map env.manifestString)]) ∧
      ((∀ m ∈ decodable env j path safe, '%' ∉ (env.manifestString m).toList) →
        (∀ m ∈ decodable env j path localOnly, '%' ∉ (env.manifestString m).toList) →
        (backup.List env j).infos = (backup.List env j).infoFormats ∧
          (backup.List env j).notices = (backup.List env j).noticeFormats) := by
  have hf := List_success_formats env j path safe localOnly h hall
  refine ⟨?_, ?_, ?_, ?_⟩
  · unfold Run.infos
    rw [hf.2.2]
    by_cases hlo : localOnly = []
    · simp [hlo]
    · simp [hlo]
  · intro hlo
    rw [hf.2.1, hf.2.2]
    simp [hlo, localOnlyCountLine]
  · intro hlo
    rw [hf.2.1, hf.2.2]
    simp [hlo]
  · intro hsafe hlocal
    have hm := List_success_messages env j path safe localOnly h hall hsafe hlocal
    rw [hm.1, hm.2, hf.2.1, hf.2.2]
    exact ⟨rfl, rfl⟩

theorem List_orphan_warning_witness :
    (backup.List (exSynced ["m1"] ["corrupt", "garbled"]) exJob).infos =
        ["The following manifests were found locally and can be removed using the clean command."] ∧
      (backup.List (exSynced ["m1"] ["corrupt", "garbled"]) exJob).notices =
        ["Found 1 backup sets:\n\nVolume: vol-a (m1)\nThere are 2 manifests found locally that are not on the target destination."] := by
  have h := List_orphan_warning (exSynced ["m1"] ["corrupt", "garbled"]) exJob "/cache"
    ["m1"] ["corrupt", "garbled"] ⟨_, _, _, rfl, rfl, rfl, rfl⟩
    (fun g hg => by rw [List.mem_singleton.1 hg]; exact ⟨exM1, rfl⟩)
  have hm := h.2.2.2 (by decide) (by decide)
  have hfmt := h.2.1 (by decide)
  exact ⟨(hm.1.trans hfmt.1).trans (by decide), (hm.2.trans hfmt.2).trans (by decide)⟩

/-! ## Setup failures -/

theorem List_prepare_error (env : Env) (j : JobInfo) (target : String) (rest : List String)
    (berr : Error) (hd : j.Destinations = target :: rest)
    (hb : env.prepareBackend j target = .error berr) :
    backup.List env j =
      ⟨[.prepareBackend target,
        .errorf ("Could not initialize backend for target " ++ target ++
          " due to error - " ++ berr ++ "."),
        .cancel], .returned (some berr)⟩ := by
  unfold backup.List
  rw [hd]
  simp only [hb]

theorem List_cacheDir_error (env : Env) (j : JobInfo) (target : String) (rest : List String)
    (backend : Backend) (cerr : Error) (hd : j.Destinations = target :: rest)
    (hb : env.prepareBackend j target = .ok backend)
    (hc : env.getCacheDir target = .error cerr) :
    backup.List env j =
      ⟨[.prepareBackend target, .getCacheDir target,
        .errorf ("Could not get cache dir for target " ++ target ++
          " due to error - " ++ cerr ++ "."),
        .backendClose backend, .cancel], .returned (some cerr)⟩ := by
  unfold backup.List
  rw [hd]
  simp only [hb, hc]

theorem List_sync_error (env : Env) (j : JobInfo) (target : String) (rest : List String)
    (backend : Backend) (path : String) (serr : Error)
    (hd : j.Destinations = target :: rest)
    (hb : env.prepareBackend j target = .ok backend)
    (hc : env.getCacheDir target = .ok path)
    (hs : env.syncCache j path backend = .error serr) :
    backup.List env j =
      ⟨[.prepareBackend target, .getCacheDir target, .syncCache path,
        .errorf ("Could not sync cache dir for target " ++ target ++
          " due to error - " ++ serr ++ "."),
        .backendClose backend, .cancel], .returned (some serr)⟩ := by
  unfold backup.List
  rw [hd]
  simp only [hb, hc, hs]

theorem listReport_none_iff (env : Env) (j : JobInfo) (path : String)
    (safe localOnly : List String) :
    (listReport env j path safe localOnly).2 = none ↔
      ∀ g ∈ safe, ∃ m, decodes env j path g = .ok m := by
  constructor
  · intro hnone g hg
    cases hdg : decodes env j path g with
    | ok m => exact ⟨m, rfl⟩
    | error e =>
      obtain ⟨pre, f, post, e', hsplit, hpre, hf⟩ :=
        first_failure env j path safe ⟨g, hg, e, hdg⟩
      have herr : (decodeManifests env j path safe).2 = .error e' := by
        rw [hsplit]
        exact decodeManifests_error env j path pre f post e' hpre hf
      rw [(listReport_error env j path safe localOnly e' herr).1] at hnone
      cases hnone
  · intro hall
    exact (listReport_ok env j path safe localOnly hall).1

/-- C8: for every job with a non-empty destination list the fatal setup conditions
abort `List` in order, each surfacing as the returned error with no inventory emitted.
If backend preparation for the first destination fails, `List` returns that error
without resolving the cache directory or syncing; if cache directory resolution fails,
`List` returns that error and `syncCache` is never invoked; if the sync fails, `List`
returns that error without decoding any manifest.  `List` returns `nil` exactly when
the three steps and every verified decode succeed. -/
theorem List_setup_failures (env : Env) (j : JobInfo) (target : String)
    (rest : List String) (hd : j.Destinations = target :: rest) :
    (∀ berr, env.prepareBackend j target = .error berr →
      (backup.List env j).outcome = .returned (some berr) ∧
        (backup.List env j).notices = [] ∧ (backup.List env j).infos = [] ∧
        (∀ t, Event.getCacheDir t ∉ (backup.List env j).events) ∧
        (∀ p, Event.syncCache p ∉ (backup.List env j).events) ∧
        (∀ p, Event.extractLocal p ∉ (backup.List env j).events)) ∧
    (∀ backend cerr, env.prepareBackend j target = .ok backend →
      env.getCacheDir target = .error cerr →
      (backup.List env j).outcome = .returned (some cerr) ∧
        (backup.List env j).notices = [] ∧ (backup.List env j).infos = [] ∧
        (∀ p, Event.syncCache p ∉ (backup.List env j).events) ∧
        (∀ p, Event.extractLocal p ∉ (backup.List env j).events)) ∧
    (∀ backend path serr, env.prepareBackend j target = .ok backend →
      env.getCacheDir target = .ok path →
      env.syncCache j path backend = .error serr →
      (backup.List env j).outcome = .returned (some serr) ∧
        (backup.List env j).notices = [] ∧ (backup.List env j).infos = [] ∧
        (∀ p, Event.extractLocal p ∉ (backup.List env j).events)) ∧
    ((backup.List env j).outcome = .returned none ↔
      ∃ backend path safe localOnly, env.prepareBackend j target = .ok backend ∧
        env.getCacheDir target = .ok path ∧
        env.syncCache j path backend = .ok (safe, localOnly) ∧
        ∀ g ∈ safe, ∃ m, decodes env j path g = .ok m) := by
  refine ⟨?_, ?_, ?_, ?_⟩
  · intro berr hb
    rw [List_prepare_error env j target rest berr hd hb]
    simp [Run.notices, Run.infos, Run.noticeFormats, Run.infoFormats, noticeFormatsOf,
      infoFormatsOf]
  · intro backend cerr hb hc
    rw [List_cacheDir_error env j target rest backend cerr hd hb hc]
    simp [Run.notices, Run.infos, Run.noticeFormats, Run.infoFormats, noticeFormatsOf,
      infoFormatsOf]
  · intro backend path serr hb hc hs
    rw [List_sync_error env j target rest backend path serr hd hb hc hs]
    simp [Run.notices, Run.infos, Run.noticeFormats, Run.infoFormats, noticeFormatsOf,
      infoFormatsOf]
  · constructor
    · intro hout
      cases hb : env.prepareBackend j target with
      | error berr =>
        rw [List_prepare_error env j target rest berr hd hb] at hout
        cases hout
      | ok backend =>
        cases hc : env.getCacheDir target with
        | error cerr =>
          rw [List_cacheDir_error env j target rest backend cerr hd hb hc] at hout
          cases hout
        | ok path =>
          cases hs : env.syncCache j path backend with
          | error serr =>
            rw [List_sync_error env j target rest backend path serr hd hb hc hs] at hout
            cases hout
          | ok lists =>
            obtain ⟨safe, localOnly⟩ := lists
            refine ⟨backend, path, safe, localOnly, rfl, rfl, hs, ?_⟩
            rw [(List_after_sync env j target rest backend path safe localOnly
              hd hb hc hs).2] at hout
            apply (listReport_none_iff env j path safe localOnly).1
            injection hout
    · rintro ⟨backend, path, safe, localOnly, hb, hc, hs, hall⟩
      rw [(List_after_sync env j target rest backend path safe localOnly hd hb hc hs).2,
        (listReport_none_iff env j path safe localOnly).2 hall]

theorem List_setup_failures_witness :
    ((backup.List (exEnv (.error "no credentials") (.ok "/cache") (.ok (["m1"], []))) exJob).outcome
        = .returned (some "no credentials") ∧
      ∀ p, Event.syncCache p ∉
        (backup.List (exEnv (.error "no credentials") (.ok "/cache") (.ok (["m1"], [])))
          exJob).events) ∧
    ((backup.List (exEnv (.ok ⟨"s3"⟩) (.error "permission denied") (.ok (["m1"], []))) exJob).outcome
        = .returned (some "permission denied") ∧
      ∀ p, Event.syncCache p ∉
        (backup.List (exEnv (.ok ⟨"s3"⟩) (.error "permission denied") (.ok (["m1"], [])))
          exJob).events) ∧
    ((backup.List (exEnv (.ok ⟨"s3"⟩) (.ok "/cache") (.error "listing failed")) exJob).outcome
        = .returned (some "listing failed") ∧
      ∀ p, Event.extractLocal p ∉
        (backup.List (exEnv (.ok ⟨"s3"⟩) (.ok "/cache") (.error "listing failed"))
          exJob).events) := by
  have h1 := (List_setup_failures
    (exEnv (.error "no credentials") (.ok "/cache") (.ok (["m1"], []))) exJob
    "s3://bucket" [] rfl).1 "no credentials" rfl
  have h2 := (List_setup_failures
    (exEnv (.ok ⟨"s3"⟩) (.error "permission denied") (.ok (["m1"], []))) exJob
    "s3://bucket" [] rfl).2.1 ⟨"s3"⟩ "permission denied" rfl rfl
  have h3 := (List_setup_failures
    (exEnv (.ok ⟨"s3"⟩) (.ok "/cache") (.error "listing failed")) exJob
    "s3://bucket" [] rfl).2.2.1 ⟨"s3"⟩ "/cache" "listing failed" rfl rfl rfl
  exact ⟨⟨h1.1, h1.2.2.2.2.1⟩, ⟨h2.1, h2.2.2.2.1⟩, ⟨h3.1, h3.2.2.2⟩⟩

/-! ## The cache synchroniser -/

theorem materialises_iff (inp : SyncInput) (key : String) :
    materialises inp key = true ↔
      (∃ bytes, inp.fetch key = .ok bytes) ∧ inp.writeOk key = true := by
  unfold materialises
  cases hf : inp.fetch key with
  | error err => simp
  | ok bytes => simp

theorem mem_cacheFiles_iff (inp : SyncInput) (R : List String) (key : String)
    (hkey : key ∈ R) :
    key ∈ inp.localFiles ++
        (R.filter (fun k => decide (k ∉ inp.localFiles))).filter (materialises inp) ↔
      (key ∉ inp.localFiles → materialises inp key = true) := by
  simp only [List.mem_append, List.mem_filter, decide_eq_true_eq]
  constructor
  · rintro (h | h) hloc
    · exact absurd h hloc
    · exact h.2
  · intro h
    by_cases hloc : key ∈ inp.localFiles
    · exact Or.inl hloc
    · exact Or.inr ⟨⟨hkey, hloc⟩, h hloc⟩

/-- C9, counterexample: the remote holds `m1` and `m2`, the cache holds `m1` and
`stale.json`, and the write of the fetched `m2` fails.  The verified result is `[m1]`,
not the remote key set, and `m2` is not a local cache file on return; `List`, run on
this sync, reports one backup set. -/
theorem synchronize_write_failure :
    synchronize (exSyncInput false) =
        .ok ⟨["m1"], ["stale.json"], ["m1", "stale.json"], ["m2"]⟩ ∧
      (backup.List (exSyncedBy (exSyncInput false)) exJob).notices =
        ["Found 1 backup sets:\n\nVolume: vol-a (m1)\nThere are 1 manifests found locally that are not on the target destination."] ∧
      ¬ (∀ (inp : SyncInput) (R : List String) (out : SyncOutput),
          inp.remoteKeys = .ok R → synchronize inp = .ok out →
            out.verified = R ∧ ∀ key ∈ R, key ∈ out.cacheFiles) := by
  refine ⟨rfl, by decide, fun h => ?_⟩
  have h1 := (h (exSyncInput false) ["m1", "m2"]
    ⟨["m1"], ["stale.json"], ["m1", "stale.json"], ["m2"]⟩ rfl rfl).1
  revert h1
  decide

/-- C9, as amended: for all remote keys `R` and local cache file names `L` before the
sync, a `synchronize` whose remote listing succeeds returns with the orphaned result
equal to `L` without `R`, with verified and orphaned disjoint, with every local file
kept, and with the verified result equal to the keys of `R` that are local cache files
on return.  The verified result equals `R`, and every key in `R` is a local cache file
on return, exactly when the fetch and the cache write of every key that is missing
locally succeed.  `List` receives the verified names as `safeManifests` and the
orphaned names as `localOnlyFiles`. -/
theorem synchronize_spec (inp : SyncInput) (R : List String)
    (hlist : inp.remoteKeys = .ok R) :
    ∃ out, synchronize inp = .ok out ∧
      out.orphaned = inp.localFiles.filter (fun file => decide (file ∉ R)) ∧
      (∀ file, file ∈ out.orphaned ↔ file ∈ inp.localFiles ∧ file ∉ R) ∧
      List.Disjoint out.verified out.orphaned ∧
      (∀ file ∈ inp.localFiles, file ∈ out.cacheFiles) ∧
      out.verified = R.filter (fun key => decide (key ∈ out.cacheFiles)) ∧
      (∀ key, key ∈ out.verified ↔ key ∈ R ∧ key ∈ out.cacheFiles) ∧
      (out.verified = R ↔
        ∀ key ∈ R, key ∉ inp.localFiles →
          (∃ bytes, inp.fetch key = .ok bytes) ∧ inp.writeOk key = true) ∧
      ((∀ key ∈ R, key ∈ out.cacheFiles) ↔
        ∀ key ∈ R, key ∉ inp.localFiles →
          (∃ bytes, inp.fetch key = .ok bytes) ∧ inp.writeOk key = true) ∧
      (∀ (env : Env) (j : JobInfo) (target : String) (rest : List String)
        (backend : Backend) (path : String), j.Destinations = target :: rest →
        env.prepareBackend j target = .ok backend → env.getCacheDir target = .ok path →
        env.syncCache j path backend = syncCacheOf inp →
        syncedTo env j path out.verified out.orphaned) := by
  have hsync : synchronize inp = .ok
      ⟨R.filter (fun key => decide (key ∈ inp.localFiles ++
          (R.filter (fun k => decide (k ∉ inp.localFiles))).filter (materialises inp))),
        inp.localFiles.filter (fun file => decide (file ∉ R)),
        inp.localFiles ++
          (R.filter (fun k => decide (k ∉ inp.localFiles))).filter (materialises inp),
        R.filter (fun k => decide (k ∉ inp.localFiles))⟩ := by
    unfold synchronize
    rw [hlist]
  have hall : (∀ key ∈ R, key ∈ inp.localFiles ++
        (R.filter (fun k => decide (k ∉ inp.localFiles))).filter (materialises inp)) ↔
      ∀ key ∈ R, key ∉ inp.localFiles →
        (∃ bytes, inp.fetch key = .ok bytes) ∧ inp.writeOk key = true := by
    constructor
    · intro h key hkey hloc
      exact (materialises_iff inp key).1 ((mem_cacheFiles_iff inp R key hkey).1 (h key hkey) hloc)
    · intro h key hkey
      exact (mem_cacheFiles_iff inp R key hkey).2
        (fun hloc => (materialises_iff inp key).2 (h key hkey hloc))
  refine ⟨_, hsync, rfl, ?_, ?_, ?_, rfl, ?_, ?_, hall, ?_⟩
  · intro file
    simp
  · intro key hv ho
    simp only [List.mem_filter, decide_eq_true_eq] at hv ho
    exact ho.2 hv.1
  · intro file hfile
    exact List.mem_append_left _ hfile
  · intro key
    simp only [List.mem_filter, decide_eq_true_eq]
  · simp only
    rw [List.filter_eq_self, ← hall]
    simp only [decide_eq_true_eq]
  · intro env j target rest backend path hd hb hc hs
    refine ⟨target, rest, backend, hd, hb, hc, ?_⟩
    rw [hs, syncCacheOf, hsync]

theorem synchronize_spec_witness :
    ∃ out, synchronize (exSyncInput true) = .ok out ∧ out.verified = ["m1", "m2"] ∧
      out.orphaned = ["stale.json"] ∧ (∀ key ∈ ["m1", "m2"], key ∈ out.cacheFiles) ∧
      syncedTo (exSyncedBy (exSyncInput true)) exJob "/cache" out.verified out.orphaned := by
  obtain ⟨out, hout, horph, _, _, _, _, _, hver, hmat, hlink⟩ :=
    synchronize_spec (exSyncInput true) ["m1", "m2"] rfl
  have hok : ∀ key ∈ ["m1", "m2"], key ∉ (exSyncInput true).localFiles →
      (∃ bytes, (exSyncInput true).fetch key = .ok bytes) ∧
        (exSyncInput true).writeOk key = true :=
    fun key _ _ => ⟨⟨"bytes of " ++ key, rfl⟩, rfl⟩
  exact ⟨out, hout, hver.2 hok, horph.trans (by decide), hmat.2 hok,
    hlink (exSyncedBy (exSyncInput true)) exJob "s3://bucket" [] ⟨"s3"⟩ "/cache" rfl rfl rfl rfl⟩
